import Mathlib

/-
Shallow embedding of the skforecast recursive/direct forecasting core
(ForecasterAutoreg.py and ForecasterAutoregMultiVariate.py).

Numeric values are modelled as rationals (ℚ); the external scikit-learn
regressor is a black-box function from an input row to a value; the numpy
seeded generator `np.random.default_rng(seed)` is modelled as a deterministic
stream indexed by (seed, counter).  NaN placeholders used by the source only
as never-read padding are modelled as 0.
-/

namespace Skforecast

/-- A regressor input row: the lagged values followed by any exogenous values. -/
abbrev Row := List ℚ

/-- The external estimator capability: `predict` on a single row, as invoked by
the recursive loop (`self.regressor.predict(X.reshape(1, -1)).ravel()`). -/
abbrev Reg := Row → ℚ

/-- Errors raised by the forecaster (ValueError / NotFittedError sites in the
source are mapped to explicit constructors). -/
inductive ForecastErr where
  | notFitted
  | lastWindowMissing
  | lastWindowTooShort
  | maxLagTooLarge
  | outSampleResidualsNone
  | outSampleResidualsByBinNone
  | inSampleResidualsMissingSteps
  | outSampleResidualsMissingSteps
  | residualsNoneForStep
deriving DecidableEq, Repr

/-- Model of a `numpy` seeded generator: a seed plus a draw counter.
`np.random.default_rng(seed)` creates `⟨seed, 0⟩`; every draw advances the
counter.  The concrete mixing function below is an arbitrary deterministic
stand-in for the PCG64 stream: all the claims depend only on the generator
being a deterministic function of its seed. -/
structure Rng where
  seed : ℕ
  counter : ℕ
deriving DecidableEq, Repr

/-- Deterministic stream backing the `Rng` model. -/
def rngMix (seed counter : ℕ) : ℕ :=
  ((seed + 1) * 2654435761 + (counter + 1) * 40503) % 4294967296

/-- Model of `np.random.default_rng(seed)`. -/
def default_rng (seed : ℕ) : Rng := ⟨seed, 0⟩

/-- Draw one natural number below `bound`, advancing the stream. -/
def Rng.natBelow (r : Rng) (bound : ℕ) : ℕ × Rng :=
  (rngMix r.seed r.counter % bound, ⟨r.seed, r.counter + 1⟩)

/-- Model of `rng.choice(a=pool, size=1)`: one uniform draw from `pool`. -/
def Rng.choiceOne (r : Rng) (pool : List ℚ) : ℚ × Rng :=
  let p := r.natBelow pool.length
  (pool.getD p.1 0, p.2)

/-- Model of `rng.choice(a=pool, size=n, replace=True)`: `n` draws in
sequence. -/
def rngChoiceReplace (pool : List ℚ) : ℕ → Rng → List ℚ × Rng
  | 0, r => ([], r)
  | n + 1, r =>
    let p := r.choiceOne pool
    let q := rngChoiceReplace pool n p.2
    (p.1 :: q.1, q.2)

/-- Model of `rng.choice(a=pool, size=n, replace=False)`: `n` draws, each
removing the chosen element from the pool. -/
def rngSampleNoReplace : List ℚ → ℕ → Rng → List ℚ × Rng
  | _, 0, r => ([], r)
  | pool, n + 1, r =>
    let p := r.natBelow pool.length
    let q := rngSampleNoReplace (pool.eraseIdx p.1) n p.2
    (pool.getD p.1 0 :: q.1, q.2)

/-- Sorted insertion, used to model numpy quantile computation (which sorts). -/
def insertSorted (x : ℚ) : List ℚ → List ℚ
  | [] => [x]
  | y :: ys => if x ≤ y then x :: y :: ys else y :: insertSorted x ys

/-- Ascending sort of a list of rationals. -/
def sortQ (l : List ℚ) : List ℚ := l.foldr insertSorted []

/-- Linear-interpolation quantile of an already sorted sample, the scheme the
spec prescribes for quantile computations. -/
def quantileSorted (s : List ℚ) (q : ℚ) : ℚ :=
  match s with
  | [] => 0
  | _ :: _ =>
    let pos : ℚ := q * ((s.length : ℚ) - 1)
    let lo : ℕ := (⌊pos⌋).toNat
    let frac : ℚ := pos - (⌊pos⌋ : ℚ)
    s.getD lo 0 + frac * (s.getD (lo + 1) 0 - s.getD lo 0)

/-- Modelled from the spec: the fitted state of the external
`sklearn.preprocessing.KBinsDiscretizer(strategy=quantile, encode=ordinal)`
collaborator is its array of bin edges (`binner.bin_edges_[0]`). -/
structure Binner where
  edges : List ℚ
deriving DecidableEq, Repr

/-- Modelled from the spec: fitting the quantile discretizer computes
`n_bins + 1` quantile edges over the sample. -/
def binnerFit (nBins : ℕ) (data : List ℚ) : Binner :=
  let s := sortQ data
  ⟨(List.range (nBins + 1)).map (fun (i : ℕ) => quantileSorted s ((i : ℚ) / (nBins : ℚ)))⟩

/-- Modelled from the spec: `transform` maps a value to its ordinal bin via
searchsorted over the interior edges (`bin_edges_[0][1:-1]`, side=right). -/
def Binner.transform1 (b : Binner) (v : ℚ) : ℕ :=
  ((b.edges.drop 1).dropLast).countP (fun e => decide (e ≤ v))

/-- Residual-perturbation argument of `_recursive_predict`: `None`, a
per-step flat sample (`residuals[i]`), or the per-bin pools
(`residuals[predicted_bin]`). -/
inductive Residuals where
  | noRes
  | flat (rs : List ℚ)
  | binned (byBin : List (ℕ × List ℚ))

/-- Lag-row construction `last_window[-self.lags - offset]` (numpy fancy
indexing with negative positions): the element for lag `l` sits at position
`len - l - offset`. -/
def lag_row (lags : List ℕ) (buffer : List ℚ) (offset : ℕ) : Row :=
  lags.map (fun l => buffer.getD (buffer.length - l - offset) 0)

/-- The exogenous row `exog[i, ]` appended to the lag row, when present. -/
def exog_row (exog : Option (List Row)) (i : ℕ) : Row :=
  match exog with
  | none => []
  | some e => e.getD i []

/-- Static configuration consumed by one run of the recursive loop. -/
structure RecCfg where
  reg : Reg
  lags : List ℕ
  binner : Binner
  exog : Option (List Row)

/-- One iteration of the loop body of `_recursive_predict` at step `i`:
build the input row from buffer positions `-(lags) - (steps - i)`, predict,
optionally add a residual, and write the result both into `predictions[i]`
and into buffer position `-(steps - i)`. -/
def recursive_step (cfg : RecCfg) (residuals : Residuals) (steps i : ℕ)
    (st : List ℚ × List ℚ × Rng) : List ℚ × List ℚ × Rng :=
  let buffer := st.1
  let preds := st.2.1
  let rng := st.2.2
  let X := lag_row cfg.lags buffer (steps - i) ++ exog_row cfg.exog i
  let predRaw := cfg.reg X
  let next : ℚ × Rng :=
    match residuals with
    | .noRes => (predRaw, rng)
    | .flat rs => (predRaw + rs.getD i 0, rng)
    | .binned byBin =>
      let bin := cfg.binner.transform1 predRaw
      let pool := (List.lookup bin byBin).getD []
      let c := rng.choiceOne pool
      (predRaw + c.1, c.2)
  (buffer.set (buffer.length - (steps - i)) next.1, preds.set i next.1, next.2)

/-- The `for i in range(steps)` loop of `_recursive_predict`, indexed by the
number `r` of remaining iterations. -/
def rec_loop (cfg : RecCfg) (residuals : Residuals) (steps : ℕ) :
    ℕ → ℕ → List ℚ × List ℚ × Rng → List ℚ × List ℚ × Rng
  | 0, _, st => st
  | r + 1, i, st => rec_loop cfg residuals steps r (i + 1) (recursive_step cfg residuals steps i st)

/-- Translation of `ForecasterAutoreg._recursive_predict`: the buffer starts as
`concatenate((last_window, predictions))` with the `steps` NaN placeholders
modelled as 0 (they are overwritten before being read for positive lags), and
the filled `predictions` array is returned together with the generator. -/
def _recursive_predict (cfg : RecCfg) (steps : ℕ) (lastWindow : List ℚ)
    (residuals : Residuals) (rng : Rng) : List ℚ × Rng :=
  let st := rec_loop cfg residuals steps steps 0
    (lastWindow ++ List.replicate steps 0, List.replicate steps 0, rng)
  (st.2.1, st.2.2)

/-- The loop of the legacy engine `_recursive_predict_013` (no residual
support, otherwise the same buffer discipline). -/
def rec_loop_013 (cfg : RecCfg) (steps : ℕ) :
    ℕ → ℕ → List ℚ × List ℚ → List ℚ × List ℚ
  | 0, _, st => st
  | r + 1, i, st =>
    let buffer := st.1
    let X := lag_row cfg.lags buffer (steps - i) ++ exog_row cfg.exog i
    let prediction := cfg.reg X
    rec_loop_013 cfg steps r (i + 1)
      (buffer.set (buffer.length - (steps - i)) prediction, st.2.set i prediction)

/-- Translation of `ForecasterAutoreg._recursive_predict_013`. -/
def _recursive_predict_013 (cfg : RecCfg) (steps : ℕ) (lastWindow : List ℚ) : List ℚ :=
  (rec_loop_013 cfg steps steps 0
    (lastWindow ++ List.replicate steps 0, List.replicate steps 0)).2

/-- An invertible value transformer (`transformer_y`): the forward map applied
before modelling and its inverse applied at the output boundary. -/
structure Transformer where
  fwd : ℚ → ℚ
  inv : ℚ → ℚ

/-- Apply an optional transformer forward, elementwise (`transform_numpy` /
`transform_dataframe` with `inverse_transform=False`). -/
def applyFwd (t : Option Transformer) (xs : List ℚ) : List ℚ :=
  match t with
  | none => xs
  | some tr => xs.map tr.fwd

/-- Apply an optional transformer inverse, elementwise (`transform_numpy` /
`transform_series` with `inverse_transform=True`). -/
def applyInv (t : Option Transformer) (xs : List ℚ) : List ℚ :=
  match t with
  | none => xs
  | some tr => xs.map tr.inv

/-- One order of consecutive differencing, keeping the series length by
padding the first position (the source pads with NaN, modelled as 0; padded
positions are dropped before training). -/
def diffOnce (y : List ℚ) : List ℚ :=
  match y with
  | [] => []
  | x :: xs => 0 :: List.zipWith (fun b a => b - a) xs (x :: xs)

/-- Order-`d` differencing: `diffOnce` applied `d` times. -/
def diffIter : ℕ → List ℚ → List ℚ
  | 0, y => y
  | d + 1, y => diffIter d (diffOnce y)

/-- Modelled from the spec: the state of the external
`skforecast.preprocessing.TimeSeriesDifferentiator` collaborator (the module is
not under src/): its order and the anchor established by the last
`fit_transform`, holding the final value of each differencing level, which
`inverse_transform_next_window` needs for its cumulative reconstruction. -/
structure Differentiator where
  order : ℕ
  anchor : List ℚ
deriving DecidableEq, Repr

/-- Modelled from the spec: `fit_transform(window)` is stateful — it returns
the differenced window and re-anchors the differentiator to this window. -/
def Differentiator.fitTransform (dfr : Differentiator) (y : List ℚ) :
    List ℚ × Differentiator :=
  (diffIter dfr.order y,
   ⟨dfr.order, (List.range dfr.order).map (fun k => (diffIter k y).getLastD 0)⟩)

/-- Cumulative sum of a list starting from an initial accumulated value. -/
def cumsumFrom (a : ℚ) : List ℚ → List ℚ
  | [] => []
  | x :: xs => (a + x) :: cumsumFrom (a + x) xs

/-- Modelled from the spec: `inverse_transform_next_window` undoes each
differencing level by a cumulative sum anchored at that level's stored final
value. -/
def Differentiator.inverseNextWindow (dfr : Differentiator) (preds : List ℚ) : List ℚ :=
  dfr.anchor.foldr cumsumFrom preds

/-- The `ForecasterAutoreg` state: exactly the fields of the source object that
the verified claims are about. -/
structure Forecaster where
  regressor : Reg
  lags : List ℕ
  transformer_y : Option Transformer
  differentiation : Option ℕ
  differentiator : Option Differentiator
  nBins : ℕ
  binner : Binner
  binner_intervals : Option (List (ℚ × Option ℚ))
  last_window_ : Option (List ℚ)
  in_sample_residuals_ : Option (List ℚ)
  in_sample_residuals_by_bin_ : Option (List (ℕ × List ℚ))
  out_sample_residuals_ : Option (List ℚ)
  out_sample_residuals_by_bin_ : Option (List (ℕ × List ℚ))
  is_fitted : Bool

/-- `max(self.lags)` (the source initialises `self.max_lag` this way). -/
def Forecaster.max_lag (F : Forecaster) : ℕ := F.lags.foldl max 0

/-- `self.window_size_diff = max_lag + differentiation order` (init code). -/
def Forecaster.window_size_diff (F : Forecaster) : ℕ :=
  F.max_lag + F.differentiation.getD 0

/-- Translation of `ForecasterAutoreg._create_lags`: raises when
`n_splits = len(y) - max_lag <= 0`, otherwise fills one column per lag with
the slice `y[max_lag - lag : -lag]` and returns the target `y[max_lag:]`.
The matrix is represented as its list of columns, mirroring the column-wise
fill loop. -/
def _create_lags (lags : List ℕ) (y : List ℚ) :
    Except ForecastErr (List (List ℚ) × List ℚ) :=
  let maxLag := lags.foldl max 0
  let nSplits := y.length - maxLag
  if y.length ≤ maxLag then .error .maxLagTooLarge
  else .ok (lags.map (fun l => (y.drop (maxLag - l)).take nSplits), y.drop maxLag)

/-- Translation of `ForecasterAutoreg.create_train_X_y` (exogenous columns
omitted — they do not change the lag matrix or row counts): transform, then
difference, then `_create_lags`, then drop the first `differentiation` rows. -/
def create_train_X_y (F : Forecaster) (y : List ℚ) :
    Except ForecastErr (List (List ℚ) × List ℚ) :=
  let yT := applyFwd F.transformer_y y
  let yV := match F.differentiation with
            | none => yT
            | some d => diffIter d yT
  match _create_lags F.lags yV with
  | .error e => .error e
  | .ok Xy =>
    match F.differentiation with
    | none => .ok Xy
    | some d => .ok (Xy.1.map (fun c => c.drop d), Xy.2.drop d)

/-- Translation of `ForecasterAutoreg._create_predict_inputs` (lines 856-982).
The external `check_predict_input` helper is in skforecast.utils, which is not
under src/; its checks relevant here are modelled from the spec: predicting
before `fit` and a window shorter than `window_size_diff` are fatal input
errors.  The out-of-sample pool checks (source lines 935-947) and the
differentiator refit (source line 961, the only state mutation on this path)
are translated directly; the checks all precede the mutation, as in the
source. -/
def _create_predict_inputs (F : Forecaster) (steps : ℕ)
    (lastWindow : Option (List ℚ)) (exog : Option (List Row))
    (predictBoot inSampleResiduals binnedResiduals : Bool) :
    Except ForecastErr (List ℚ × Option (List Row) × Forecaster) :=
  match lastWindow.orElse (fun _ => F.last_window_) with
  | none => .error .lastWindowMissing
  | some lw =>
    if ¬ F.is_fitted then .error .notFitted
    else if lw.length < F.window_size_diff then .error .lastWindowTooShort
    else if predictBoot ∧ ¬ inSampleResiduals ∧ ¬ binnedResiduals
            ∧ F.out_sample_residuals_ = none then
      .error .outSampleResidualsNone
    else if predictBoot ∧ ¬ inSampleResiduals ∧ binnedResiduals
            ∧ F.out_sample_residuals_by_bin_ = none then
      .error .outSampleResidualsByBinNone
    else
      let lwTrim := lw.drop (lw.length - F.window_size_diff)
      let lwT := applyFwd F.transformer_y lwTrim
      let exogValues := exog.map (fun e => e.take steps)
      match F.differentiation, F.differentiator with
      | some _, some dfr =>
        let p := dfr.fitTransform lwT
        .ok (p.1, exogValues, { F with differentiator := some p.2 })
      | _, _ => .ok (lwT, exogValues, F)

/-- Translation of the legacy `_create_predict_inputs_013` (lines 1913-1997):
the same pipeline without the bootstrap pool checks. -/
def _create_predict_inputs_013 (F : Forecaster) (steps : ℕ)
    (lastWindow : Option (List ℚ)) (exog : Option (List Row)) :
    Except ForecastErr (List ℚ × Option (List Row) × Forecaster) :=
  match lastWindow.orElse (fun _ => F.last_window_) with
  | none => .error .lastWindowMissing
  | some lw =>
    if ¬ F.is_fitted then .error .notFitted
    else if lw.length < F.window_size_diff then .error .lastWindowTooShort
    else
      let lwTrim := lw.drop (lw.length - F.window_size_diff)
      let lwT := applyFwd F.transformer_y lwTrim
      let exogValues := exog.map (fun e => e.take steps)
      match F.differentiation, F.differentiator with
      | some _, some dfr =>
        let p := dfr.fitTransform lwT
        .ok (p.1, exogValues, { F with differentiator := some p.2 })
      | _, _ => .ok (lwT, exogValues, F)

/-- Undo differencing on a prediction sequence when differencing is
configured (`self.differentiator.inverse_transform_next_window`). -/
def invDiff (F : Forecaster) (preds : List ℚ) : List ℚ :=
  match F.differentiation, F.differentiator with
  | some _, some dfr => dfr.inverseNextWindow preds
  | _, _ => preds

/-- Translation of `ForecasterAutoreg.predict` (lines 1125-1186): build the
inputs, run the recursive engine with no residuals, undo differencing, undo
the `y` transformation.  The returned forecaster carries the differentiator
state mutated by `fit_transform` inside `_create_predict_inputs`; a raised
error leaves the state untouched. -/
def predict (F : Forecaster) (steps : ℕ) (lastWindow : Option (List ℚ))
    (exog : Option (List Row)) : Except ForecastErr (List ℚ) × Forecaster :=
  match _create_predict_inputs F steps lastWindow exog false true false with
  | .error e => (.error e, F)
  | .ok (lwv, exv, F2) =>
    let preds := (_recursive_predict ⟨F2.regressor, F2.lags, F2.binner, exv⟩
      steps lwv .noRes (default_rng 0)).1
    (.ok (applyInv F2.transformer_y (invDiff F2 preds)), F2)

/-- Translation of the legacy `ForecasterAutoreg.predict_013`
(lines 2111-2170): same pipeline through the 013 inputs builder and engine. -/
def predict_013 (F : Forecaster) (steps : ℕ) (lastWindow : Option (List ℚ))
    (exog : Option (List Row)) : Except ForecastErr (List ℚ) × Forecaster :=
  match _create_predict_inputs_013 F steps lastWindow exog with
  | .error e => (.error e, F)
  | .ok (lwv, exv, F2) =>
    let preds := _recursive_predict_013 ⟨F2.regressor, F2.lags, F2.binner, exv⟩ steps lwv
    (.ok (applyInv F2.transformer_y (invDiff F2 preds)), F2)

/-- One replicate of the bootstrap loop of `predict_bootstrapping`: run the
recursive engine with this replicate's residuals (flat column `b` of the
pre-drawn matrix, or the per-bin pools) and append the produced column,
threading the generator. -/
def boot_iteration (cfg : RecCfg) (steps : ℕ) (lwv : List ℚ)
    (resFor : ℕ → Residuals) (acc : List (List ℚ) × Rng) (b : ℕ) :
    List (List ℚ) × Rng :=
  let p := _recursive_predict cfg steps lwv (resFor b) acc.2
  (acc.1 ++ [p.1], p.2)

/-- Translation of `ForecasterAutoreg.predict_bootstrapping` (lines
1191-1318).  The bootstrap matrix `(steps, n_boot)` is represented as the
list of its `n_boot` columns.  In flat mode the `(steps, n_boot)` residual
matrix is drawn row-major in one shot (`rng.choice(size=(steps, n_boot))`)
and column `b` is handed to replicate `b`; in binned mode the per-bin pools
are handed over and the single generator threads through all replicates, as
in the source.  The `globalRng` argument models the ambient `np.random`
global state: the source never touches it (all randomness flows through
`np.random.default_rng(random_state)`), so it is returned unchanged. -/
def predict_bootstrapping (F : Forecaster) (steps : ℕ)
    (lastWindow : Option (List ℚ)) (exog : Option (List Row))
    (nBoot randomState : ℕ) (inSampleResiduals binnedResiduals : Bool)
    (globalRng : Rng) :
    Except ForecastErr (List (List ℚ)) × Forecaster × Rng :=
  match _create_predict_inputs F steps lastWindow exog true
      inSampleResiduals binnedResiduals with
  | .error e => (.error e, F, globalRng)
  | .ok (lwv, exv, F2) =>
    let residuals := if inSampleResiduals then F2.in_sample_residuals_.getD []
                     else F2.out_sample_residuals_.getD []
    let residualsByBin := if inSampleResiduals then F2.in_sample_residuals_by_bin_.getD []
                          else F2.out_sample_residuals_by_bin_.getD []
    let rng := default_rng randomState
    let drawn := rngChoiceReplace residuals (steps * nBoot) rng
    let rng1 := if binnedResiduals then rng else drawn.2
    let cfg : RecCfg := ⟨F2.regressor, F2.lags, F2.binner, exv⟩
    let resFor : ℕ → Residuals := fun b =>
      if binnedResiduals then .binned residualsByBin
      else .flat ((List.range steps).map (fun s => drawn.1.getD (s * nBoot + b) 0))
    let booted := (List.range nBoot).foldl (boot_iteration cfg steps lwv resFor) ([], rng1)
    let cols := booted.1.map (fun c => applyInv F2.transformer_y (invDiff F2 c))
    (.ok cols, F2, globalRng)

/-- Sorted insertion of a key, keeping the key list strictly ascending;
models the sorted key order of a pandas `groupby(...).to_dict()`. -/
def insertKey (k : ℕ) : List ℕ → List ℕ
  | [] => [k]
  | x :: xs => if k < x then k :: x :: xs else if k = x then x :: xs else x :: insertKey k xs

/-- The ascending list of distinct bin keys occurring in the data. -/
def sortedKeys (pairs : List (ℕ × ℚ)) : List ℕ :=
  (pairs.map Prod.fst).foldl (fun acc k => insertKey k acc) []

/-- Model of `data.groupby('bin')['residual'].apply(np.array).to_dict()`:
one entry per occurring bin, keys ascending, each group keeping the original
order of its members. -/
def groupByBin (pairs : List (ℕ × ℚ)) : List (ℕ × List ℚ) :=
  (sortedKeys pairs).map (fun k => (k, (pairs.filter (fun p => p.1 == k)).map Prod.snd))

/-- Everything `_binning_in_sample_residuals` stores on the forecaster. -/
structure BinningResult where
  binner : Binner
  byBin : List (ℕ × List ℚ)
  flat : List ℚ
  intervals : List (ℚ × Option ℚ)
deriving DecidableEq, Repr

/-- Translation of the `binner_intervals` construction (source lines 843-853):
`{i: (edges[i], edges[i+1] if i+1 < len(edges) else None) for i in
range(len(edges) - 1)}`, including the (dead) guard on `i + 1`. -/
def binner_intervals_of (edges : List ℚ) : List (ℚ × Option ℚ) :=
  (List.range (edges.length - 1)).map (fun i =>
    (edges.getD i 0, if i + 1 < edges.length then some (edges.getD (i + 1) 0) else none))

/-- Translation of `ForecasterAutoreg._binning_in_sample_residuals` (lines
786-853): fit the quantile binner on the predictions, bin each residual by
its prediction, group by bin (keys sorted), cap each bin at 200 values by a
seeded without-replacement sample (the generator is re-seeded per bin, as in
the source loop), store the flat pool as the concatenation of the per-bin
pools, and store the bin intervals. -/
def _binning_in_sample_residuals (nBins randomState : ℕ)
    (yTrue yPred : List ℚ) : BinningResult :=
  let residuals := List.zipWith (fun t p => t - p) yTrue yPred
  let binner := binnerFit nBins yPred
  let pairs := List.zipWith (fun r p => (binner.transform1 p, r)) residuals yPred
  let grouped := groupByBin pairs
  let byBin := grouped.map (fun kv =>
    if 200 < kv.2.length then
      (kv.1, (rngSampleNoReplace kv.2 200 (default_rng randomState)).1)
    else kv)
  ⟨binner, byBin, (byBin.map Prod.snd).flatten, binner_intervals_of binner.edges⟩

/-- The `steps` argument accepted by the direct forecaster's `predict`. -/
inductive StepsArg where
  | int (n : ℕ)
  | list (l : List ℕ)
  | noneArg

/-- Modelled from the spec: `prepare_steps_direct` lives in skforecast.utils,
which is not under src/.  Per the spec and the `predict` docstring: an int `n`
selects steps 1..n, a list is used as given (subset/reordering allowed), and
`None` selects every step registered at initialisation. -/
def prepare_steps_direct (maxStep : ℕ) : StepsArg → List ℕ
  | .int n => (List.range n).map (· + 1)
  | .list l => l
  | .noneArg => (List.range maxStep).map (· + 1)

/-- The `ForecasterAutoregMultiVariate` (direct multi-horizon) state: `steps`
pre-registered horizons, per-series lags over the training series (positional,
in `X_train_series_names_in_` order), per-series `y` transformers, one
regressor per horizon (`self.regressors_[step]`, 1-based), the target level's
transformer `self.transformer_series_[self.level]` (forward and inverse), and
the per-step residual dicts: `in_sample_residuals_` maps each step to its
residual array (or None), `out_sample_residuals_` is the same dict or None
when never set. -/
structure ForecasterDirect where
  steps : ℕ
  seriesLags : List (List ℕ)
  transformers : List (ℚ → ℚ)
  window_size : ℕ
  regressors_ : ℕ → Reg
  last_window_ : Option (List (List ℚ))
  is_fitted : Bool
  transformer_series_level : Option Transformer
  in_sample_residuals_ : List (ℕ × Option (List ℚ))
  out_sample_residuals_ : Option (List (ℕ × Option (List ℚ)))

/-- Fancy indexing `values[-lags]` on one series window. -/
def series_lag_row (lagsS : List ℕ) (vals : List ℚ) : Row :=
  lagsS.map (fun l => vals.getD (vals.length - l) 0)

/-- The shared predictor row `X_lags` built by
`ForecasterAutoregMultiVariate._create_predict_inputs` (lines 1539-1554):
for each training series, trim the window to the last `window_size` rows,
transform it, and append its lag values; every requested horizon reads this
same fixed row. -/
def x_lags (FD : ForecasterDirect) (lw : List (List ℚ)) : Row :=
  ((List.range FD.seriesLags.length).map (fun s =>
    let vals0 := lw.getD s []
    let vals1 := vals0.drop (vals0.length - FD.window_size)
    let vals := vals1.map (FD.transformers.getD s id)
    series_lag_row (FD.seriesLags.getD s []) vals)).flatten

/-- Translation of `ForecasterAutoregMultiVariate.predict` (lines 1659-1743),
point-prediction core: resolve the requested horizons, build `Xs` (the fixed
`X_lags` row, replicated when there is no exogenous input, else extended with
the per-horizon exogenous slice), pick `regressors = [self.regressors_[step]
for step in steps]`, and predict one value per requested horizon by zipping
the two lists. -/
def direct_predict (FD : ForecasterDirect) (stepsArg : StepsArg)
    (lastWindow : Option (List (List ℚ))) (exog : Option (List Row)) :
    Except ForecastErr (List ℚ) :=
  let steps := prepare_steps_direct FD.steps stepsArg
  match lastWindow.orElse (fun _ => FD.last_window_) with
  | none => .error .lastWindowMissing
  | some lw =>
    if ¬ FD.is_fitted then .error .notFitted
    else
      let X := x_lags FD lw
      let Xs := match exog with
                | none => List.replicate steps.length X
                | some e => steps.map (fun s => X ++ e.getD (s - 1) [])
      .ok ((List.zip steps Xs).map (fun p => FD.regressors_ p.1 p.2))

/-- `residuals[step]` on a per-step residual dict: the stored array, None if
the step's entry is None (a missing key also reads as None; the subset check
of `predict_bootstrapping` rules that case out before any lookup). -/
def dictGet (d : List (ℕ × Option (List ℚ))) (k : ℕ) : Option (List ℚ) :=
  ((d.find? (fun p => p.1 == k)).map Prod.snd).getD none

/-- The residual-selection checks of
`ForecasterAutoregMultiVariate.predict_bootstrapping` (lines 1825-1846): in
in-sample mode the requested steps must be a subset of the
`in_sample_residuals_` keys; in out-sample mode the dict must exist and cover
the requested steps. -/
def direct_residual_check (FD : ForecasterDirect) (steps : List ℕ)
    (inSampleResiduals : Bool) : Except ForecastErr (List (ℕ × Option (List ℚ))) :=
  if inSampleResiduals then
    if steps.all (fun s => (FD.in_sample_residuals_.map Prod.fst).contains s) then
      .ok FD.in_sample_residuals_
    else .error .inSampleResidualsMissingSteps
  else
    match FD.out_sample_residuals_ with
    | none => .error .outSampleResidualsNone
    | some d =>
      if steps.all (fun s => (d.map Prod.fst).contains s) then .ok d
      else .error .outSampleResidualsMissingSteps

/-- The per-step bootstrap loop of
`ForecasterAutoregMultiVariate.predict_bootstrapping` (lines 1880-1887): for
each requested step (in order) draw `n_boot` residuals with replacement from
that step's pool and add them to that step's point prediction, threading the
single seeded generator through the whole loop.  Returns the matrix as its
list of `steps` rows of `n_boot` values. -/
def direct_boot_rows (residualsFor : ℕ → List ℚ) (nBoot : ℕ) :
    List (ℕ × ℚ) → Rng → List (List ℚ) × Rng
  | [], r => ([], r)
  | sp :: rest, r =>
    let s := rngChoiceReplace (residualsFor sp.1) nBoot r
    let q := direct_boot_rows residualsFor nBoot rest s.2
    ((s.1.map (fun e => sp.2 + e)) :: q.1, q.2)

/-- Translation of `ForecasterAutoregMultiVariate.predict_bootstrapping`
(lines 1746-1906).  When fitted, the steps are resolved and the residual
dict selected and checked (subset of keys, then no per-step None pool; the
elementwise None/NaN scan has no rational counterpart and cannot fail in the
model); the point predictions come from `predict` — the source
inverse-transforms them at its boundary and immediately forward-transforms
them here (lines 1869-1875), so in the model, whose `direct_predict` stays
in the transformed scale, the pair cancels; then the seeded per-step residual
loop runs and every row is inverse-transformed (lines 1889-1897).  The
matrix is the list of its `steps` rows of `n_boot` values.  `globalRng`
models the ambient `np.random` global state: all randomness flows through
`np.random.default_rng(random_state)`, so it is returned unchanged. -/
def direct_predict_bootstrapping (FD : ForecasterDirect) (stepsArg : StepsArg)
    (lastWindow : Option (List (List ℚ))) (exog : Option (List Row))
    (nBoot randomState : ℕ) (inSampleResiduals : Bool) (globalRng : Rng) :
    Except ForecastErr (List (List ℚ)) × Rng :=
  let steps := prepare_steps_direct FD.steps stepsArg
  let checked : Except ForecastErr (List (ℕ × Option (List ℚ))) :=
    if FD.is_fitted then
      match direct_residual_check FD steps inSampleResiduals with
      | .error e => .error e
      | .ok d =>
        if steps.all (fun s => (dictGet d s).isSome) then .ok d
        else .error .residualsNoneForStep
    else .ok []
  match checked with
  | .error e => (.error e, globalRng)
  | .ok d =>
    match direct_predict FD stepsArg lastWindow exog with
    | .error e => (.error e, globalRng)
    | .ok preds =>
      let rows := direct_boot_rows (fun s => (dictGet d s).getD []) nBoot
        (List.zip steps preds) (default_rng randomState)
      (.ok (rows.1.map (fun row => applyInv FD.transformer_series_level row)), globalRng)

/-- The trivial estimator of the spec's concrete scenario: predicts the mean
of its input row. -/
def meanReg : Reg := fun xs => xs.sum / (xs.length : ℚ)

/-- A fitted `ForecasterAutoreg(regressor=mean, lags=[1,2,3])` with no
transformer and no differencing, trained so that `last_window` can be
supplied at predict time (the spec's first concrete scenario). -/
def meanF : Forecaster :=
  { regressor := meanReg, lags := [1, 2, 3], transformer_y := none,
    differentiation := none, differentiator := none, nBins := 10,
    binner := ⟨[]⟩, binner_intervals := none, last_window_ := none,
    in_sample_residuals_ := some [0], in_sample_residuals_by_bin_ := some [(0, [0])],
    out_sample_residuals_ := none, out_sample_residuals_by_bin_ := none,
    is_fitted := true }

/-- A fitted forecaster with order-1 differencing whose differentiator is
anchored at 5 (the anchor the last `fit` established). -/
def diffF : Forecaster :=
  { regressor := meanReg, lags := [1], transformer_y := none,
    differentiation := some 1, differentiator := some ⟨1, [5]⟩, nBins := 10,
    binner := ⟨[]⟩, binner_intervals := none, last_window_ := some [4, 5],
    in_sample_residuals_ := some [0], in_sample_residuals_by_bin_ := some [(0, [0])],
    out_sample_residuals_ := none, out_sample_residuals_by_bin_ := none,
    is_fitted := true }

/-- A fitted direct forecaster with `steps=3` horizons, one series with lag 1,
and three constant-predicting per-horizon estimators `(c1, c2, c3)` (the
spec's second concrete scenario). -/
def constDirect (c1 c2 c3 : ℚ) : ForecasterDirect :=
  { steps := 3, seriesLags := [[1]], transformers := [],
    window_size := 1,
    regressors_ := fun s => fun _ => if s = 1 then c1 else if s = 2 then c2 else c3,
    last_window_ := some [[7]], is_fitted := true,
    transformer_series_level := none,
    in_sample_residuals_ := [(1, some [0]), (2, some [0]), (3, some [0])],
    out_sample_residuals_ := none }

/-- Training targets of the constant-prediction fit used to refute the bin
coverage and interval claims. -/
def cTrue : List ℚ := [1, 2, 3, 4, 5, 6, 7, 8, 9, 10]

/-- In-sample predictions of a constant-predicting regressor: ten copies of 5,
so every quantile edge collapses to 5 and a single bin is occupied. -/
def cPred : List ℚ := List.replicate 10 (5 : ℚ)

/-- In-sample predictions for the flat-cap failing input: 1001 distinct
values, which the 10 quantile bins split into groups of 100 or 101 — no bin
exceeds the 200 cap, and the flat pool keeps all 1001 residuals. -/
def c6Pred : List ℚ := (List.range 1001).map (Nat.cast : ℕ → ℚ)

/-- The quantile edges the binner fits on `c6Pred` (11 edges for 10 bins). -/
def c6Edges : List ℚ :=
  [0, 100, 200, 300, 400, 500, 600, 700, 800, 900, 1000]

/-- The interior edges of `c6Edges` as naturals, for bin arithmetic. -/
def c6Interior : List ℕ := [100, 200, 300, 400, 500, 600, 700, 800, 900]

/-- The (bin, residual) pairs `_binning_in_sample_residuals` builds from
`c6Pred` as both truth and prediction. -/
def c6Pairs : List (ℕ × ℚ) :=
  List.zipWith (fun r p => ((binnerFit 10 c6Pred).transform1 p, r))
    (List.zipWith (fun t p => t - p) c6Pred c6Pred) c6Pred

/-- How many of the 1001 training points land in bin `k` of the `c6Edges`
binner, expressed purely over naturals so it can be decided. -/
def c6Count (k : ℕ) : ℕ :=
  (List.range 1001).countP (fun j => c6Interior.countP (fun e => decide (e ≤ j)) == k)

/-- Decidable equality for `Except` results, used to evaluate the model on
concrete inputs. -/
instance {e a : Type} [DecidableEq e] [DecidableEq a] : DecidableEq (Except e a) :=
  fun x y =>
    match x, y with
    | .ok u, .ok v =>
      if h : u = v then .isTrue (by rw [h])
      else .isFalse (fun hc => h (Except.ok.inj hc))
    | .error u, .error v =>
      if h : u = v then .isTrue (by rw [h])
      else .isFalse (fun hc => h (Except.error.inj hc))
    | .ok _, .error _ => .isFalse (fun hc => Except.noConfusion hc)
    | .error _, .ok _ => .isFalse (fun hc => Except.noConfusion hc)

/-- The Python slice `y[a:b]` (used to state the lag-column contract). -/
def slice (y : List ℚ) (a b : ℕ) : List ℚ := (y.drop a).take (b - a)

/-- Equality of two forecaster states on every field except the
differentiator (the one field `predict` refits). -/
def sameExceptDifferentiator (F1 F2 : Forecaster) : Prop :=
  F2.regressor = F1.regressor ∧ F2.lags = F1.lags ∧
  F2.transformer_y = F1.transformer_y ∧ F2.differentiation = F1.differentiation ∧
  F2.nBins = F1.nBins ∧ F2.binner = F1.binner ∧
  F2.binner_intervals = F1.binner_intervals ∧
  F2.last_window_ = F1.last_window_ ∧
  F2.in_sample_residuals_ = F1.in_sample_residuals_ ∧
  F2.in_sample_residuals_by_bin_ = F1.in_sample_residuals_by_bin_ ∧
  F2.out_sample_residuals_ = F1.out_sample_residuals_ ∧
  F2.out_sample_residuals_by_bin_ = F1.out_sample_residuals_by_bin_ ∧
  F2.is_fitted = F1.is_fitted

/- ------------------------------------------------------------------ -/
/- Theorems.                                                           -/
/- ------------------------------------------------------------------ -/

theorem getD_set_ne (l : List ℚ) (i j : ℕ) (x : ℚ) (h : i ≠ j) :
    (l.set i x).getD j 0 = l.getD j 0 := by
  simp [List.getD_eq_getElem?_getD, List.getElem?_set_ne h]

theorem getD_set_self (l : List ℚ) (i : ℕ) (x : ℚ) (h : i < l.length) :
    (l.set i x).getD i 0 = x := by
  simp [List.getD_eq_getElem?_getD, List.getElem?_set_self, h]

theorem getD_append_left (l1 l2 : List ℚ) (k : ℕ) (h : k < l1.length) :
    (l1 ++ l2).getD k 0 = l1.getD k 0 := by
  simp [List.getD_eq_getElem?_getD, List.getElem?_append_left h]

theorem getD_append_right (l1 l2 : List ℚ) (k : ℕ) :
    (l1 ++ l2).getD (l1.length + k) 0 = l2.getD k 0 := by
  simp [List.getD_eq_getElem?_getD, List.getElem?_append_right (Nat.le_add_right _ k)]

theorem rec_loop_length (cfg : RecCfg) (res : Residuals) (steps : ℕ) :
    ∀ (r i : ℕ) (st : List ℚ × List ℚ × Rng),
      (rec_loop cfg res steps r i st).1.length = st.1.length ∧
      (rec_loop cfg res steps r i st).2.1.length = st.2.1.length := by
  intro r
  induction r with
  | zero => intro i st; exact ⟨rfl, rfl⟩
  | succ r ih =>
    intro i st
    have h := ih (i + 1) (recursive_step cfg res steps i st)
    simpa [rec_loop, recursive_step] using h

theorem rec_loop_buf_stable (cfg : RecCfg) (res : Residuals) (steps w : ℕ) :
    ∀ (r i : ℕ) (st : List ℚ × List ℚ × Rng),
      st.1.length = w + steps → i + r ≤ steps →
      ∀ k, k < w + i →
        (rec_loop cfg res steps r i st).1.getD k 0 = st.1.getD k 0 := by
  intro r
  induction r with
  | zero => intro i st _ _ k _; rfl
  | succ r ih =>
    intro i st hbuf hi k hk
    have hwrite : st.1.length - (steps - i) = w + i := by omega
    have hlen : (recursive_step cfg res steps i st).1.length = w + steps := by
      simp [recursive_step, hbuf]
    have := ih (i + 1) (recursive_step cfg res steps i st) hlen (by omega) k (by omega)
    rw [rec_loop, this]
    simp only [recursive_step]
    rw [hwrite]
    exact getD_set_ne _ _ _ _ (by omega)

theorem rec_loop_preds_stable (cfg : RecCfg) (res : Residuals) (steps w : ℕ) :
    ∀ (r i : ℕ) (st : List ℚ × List ℚ × Rng),
      st.1.length = w + steps → i + r ≤ steps →
      ∀ k, k < i →
        (rec_loop cfg res steps r i st).2.1.getD k 0 = st.2.1.getD k 0 := by
  intro r
  induction r with
  | zero => intro i st _ _ k _; rfl
  | succ r ih =>
    intro i st hbuf hi k hk
    have hlen : (recursive_step cfg res steps i st).1.length = w + steps := by
      simp [recursive_step, hbuf]
    have := ih (i + 1) (recursive_step cfg res steps i st) hlen (by omega) k (by omega)
    rw [rec_loop, this]
    simp only [recursive_step]
    exact getD_set_ne _ _ _ _ (by omega)

theorem rec_loop_preds_sync (cfg : RecCfg) (res : Residuals) (steps w : ℕ) :
    ∀ (r i : ℕ) (st : List ℚ × List ℚ × Rng),
      st.1.length = w + steps → st.2.1.length = steps → i + r ≤ steps →
      ∀ j, i ≤ j → j < i + r →
        (rec_loop cfg res steps r i st).2.1.getD j 0 =
        (rec_loop cfg res steps r i st).1.getD (w + j) 0 := by
  intro r
  induction r with
  | zero => intro i st _ _ _ j h1 h2; omega
  | succ r ih =>
    intro i st hbuf hpreds hi j h1 h2
    set st' := recursive_step cfg res steps i st with hst
    have hlen1 : st'.1.length = w + steps := by simp [hst, recursive_step, hbuf]
    have hlen2 : st'.2.1.length = steps := by simp [hst, recursive_step, hpreds]
    rcases Nat.eq_or_lt_of_le h1 with heq | hlt
    · subst heq
      rw [rec_loop]
      rw [rec_loop_preds_stable cfg res steps w r (i + 1) st' hlen1 (by omega) i (by omega)]
      rw [rec_loop_buf_stable cfg res steps w r (i + 1) st' hlen1 (by omega) (w + i) (by omega)]
      have hwrite : st.1.length - (steps - i) = w + i := by omega
      simp only [hst, recursive_step]
      rw [hwrite]
      rw [getD_set_self _ _ _ (by omega), getD_set_self _ _ _ (by omega)]
    · rw [rec_loop]
      exact ih (i + 1) st' hlen1 hlen2 (by omega) j (by omega) (by omega)

theorem rec_loop_char (cfg : RecCfg) (steps w : ℕ)
    (hexog : cfg.exog = none)
    (hlags : ∀ l ∈ cfg.lags, 1 ≤ l ∧ l ≤ w) :
    ∀ (r i : ℕ) (st : List ℚ × List ℚ × Rng),
      st.1.length = w + steps → i + r ≤ steps →
      ∀ j, i ≤ j → j < i + r →
        (rec_loop cfg .noRes steps r i st).1.getD (w + j) 0 =
        cfg.reg (cfg.lags.map (fun l =>
          (rec_loop cfg .noRes steps r i st).1.getD (w + j - l) 0)) := by
  intro r
  induction r with
  | zero => intro i st _ _ j h1 h2; omega
  | succ r ih =>
    intro i st hbuf hi j h1 h2
    set st' := recursive_step cfg .noRes steps i st with hst
    have hlen1 : st'.1.length = w + steps := by simp [hst, recursive_step, hbuf]
    rcases Nat.eq_or_lt_of_le h1 with heq | hlt
    · subst heq
      rw [rec_loop]
      have hwrite : st.1.length - (steps - i) = w + i := by omega
      rw [rec_loop_buf_stable cfg .noRes steps w r (i + 1) st' hlen1 (by omega) (w + i) (by omega)]
      have h1 : st'.1 = st.1.set (w + i)
          (cfg.reg (lag_row cfg.lags st.1 (steps - i))) := by
        simp only [hst, recursive_step, hexog, exog_row, List.append_nil]
        rw [hwrite]
      have hval : st'.1.getD (w + i) 0 =
          cfg.reg (cfg.lags.map (fun l => st.1.getD (w + i - l) 0)) := by
        rw [h1, getD_set_self _ _ _ (by omega : w + i < st.1.length)]
        congr 1
        unfold lag_row
        apply List.map_congr_left
        intro l hl
        have hb := hlags l hl
        rw [show st.1.length - l - (steps - i) = w + i - l by omega]
      rw [hval]
      congr 1
      apply List.map_congr_left
      intro l hl
      have hb := hlags l hl
      rw [rec_loop_buf_stable cfg .noRes steps w r (i + 1) st' hlen1 (by omega) (w + i - l) (by omega)]
      rw [h1]
      exact (getD_set_ne _ _ _ _ (by omega)).symm
    · rw [rec_loop]
      exact ih (i + 1) st' hlen1 (by omega) j (by omega) (by omega)

theorem recursive_predict_char (cfg : RecCfg) (steps : ℕ) (lw : List ℚ) (rng : Rng)
    (hexog : cfg.exog = none)
    (hlags : ∀ l ∈ cfg.lags, 1 ≤ l ∧ l ≤ lw.length) :
    ∀ i, i < steps →
      ((_recursive_predict cfg steps lw .noRes rng).1).getD i 0 =
      cfg.reg (cfg.lags.map (fun l =>
        (lw ++ (_recursive_predict cfg steps lw .noRes rng).1).getD (lw.length + i - l) 0)) := by
  intro i hi
  set w := lw.length with hw
  set st0 : List ℚ × List ℚ × Rng :=
    (lw ++ List.replicate steps 0, List.replicate steps 0, rng) with hst0
  have hbuf : st0.1.length = w + steps := by simp [hst0]
  have hpreds : st0.2.1.length = steps := by simp [hst0]
  have hout : (_recursive_predict cfg steps lw .noRes rng).1 =
      (rec_loop cfg .noRes steps steps 0 st0).2.1 := rfl
  have hrel : ∀ k, k < w + steps →
      (rec_loop cfg .noRes steps steps 0 st0).1.getD k 0 =
      (lw ++ (rec_loop cfg .noRes steps steps 0 st0).2.1).getD k 0 := by
    intro k hk
    by_cases hcase : k < w
    · rw [rec_loop_buf_stable cfg .noRes steps w steps 0 st0 hbuf (by omega) k (by omega)]
      rw [getD_append_left _ _ _ hcase]
      exact (getD_append_left _ _ _ hcase).symm
    · have hj : k = w + (k - w) := by omega
      rw [hj]
      rw [← rec_loop_preds_sync cfg .noRes steps w steps 0 st0 hbuf hpreds (by omega)
            (k - w) (by omega) (by omega)]
      rw [getD_append_right]
  rw [hout]
  rw [rec_loop_preds_sync cfg .noRes steps w steps 0 st0 hbuf hpreds (by omega) i
        (by omega) (by omega)]
  rw [rec_loop_char cfg steps w hexog hlags steps 0 st0 hbuf (by omega) i (by omega) (by omega)]
  congr 1
  apply List.map_congr_left
  intro l hl
  have hb := hlags l hl
  exact hrel (w + i - l) (by omega)

/-- C1: with lags `[1,2,3]`, a mean-predicting regressor, no transformer and
no differencing, `predict(steps=1)` from `last_window=[8,9,10]` returns the
single value `mean([10,9,8]) = 9` and leaves the forecaster unchanged; and in
general the recursive engine computes each step `i` by applying the regressor
to the buffer values at positions `-(lags) - (steps - i)` — equivalently, in
the combined sequence `last_window ++ predictions`, prediction `i` (the value
written at position `-(steps - i)`) is the regressor applied to the values at
positions `w + i - l` for each lag `l`, where `w = len(last_window)`. -/
theorem claim_C1 :
    ((predict meanF 1 (some [8, 9, 10]) none).1 = .ok [9] ∧
      (predict meanF 1 (some [8, 9, 10]) none).2 = meanF) ∧
    ∀ (cfg : RecCfg) (steps : ℕ) (lw : List ℚ) (rng : Rng),
      cfg.exog = none →
      (∀ l ∈ cfg.lags, 1 ≤ l ∧ l ≤ lw.length) →
      ∀ i, i < steps →
        ((_recursive_predict cfg steps lw .noRes rng).1).getD i 0 =
        cfg.reg (cfg.lags.map (fun l =>
          (lw ++ (_recursive_predict cfg steps lw .noRes rng).1).getD
            (lw.length + i - l) 0)) :=
  ⟨⟨by
      norm_num [predict, _create_predict_inputs, _recursive_predict, rec_loop,
        recursive_step, meanF, meanReg, lag_row, exog_row, applyFwd, invDiff,
        Forecaster.window_size_diff, Forecaster.max_lag, applyInv],
    rfl⟩,
   fun cfg steps lw rng hexog hlags =>
     recursive_predict_char cfg steps lw rng hexog hlags⟩

/-- Witness for C1: the general characterization applied to the concrete
scenario (lags `[1,2,3]`, window `[8,9,10]`, one step). -/
theorem claim_C1_witness :
    ((_recursive_predict ⟨meanReg, [1, 2, 3], ⟨[]⟩, none⟩ 1 [8, 9, 10] .noRes
        (default_rng 0)).1).getD 0 0 =
    meanReg ([1, 2, 3].map (fun l =>
      (([8, 9, 10] : List ℚ) ++
        (_recursive_predict ⟨meanReg, [1, 2, 3], ⟨[]⟩, none⟩ 1 [8, 9, 10] .noRes
          (default_rng 0)).1).getD (([8, 9, 10] : List ℚ).length + 0 - l) 0)) :=
  claim_C1.2 ⟨meanReg, [1, 2, 3], ⟨[]⟩, none⟩ 1 [8, 9, 10] (default_rng 0) rfl
    (by decide) 0 (by decide)

theorem rec_loop_noRes_eq_013 (cfg : RecCfg) (steps : ℕ) :
    ∀ (r i : ℕ) (buf preds : List ℚ) (rng : Rng),
      (rec_loop cfg .noRes steps r i (buf, preds, rng)).1 =
        (rec_loop_013 cfg steps r i (buf, preds)).1 ∧
      (rec_loop cfg .noRes steps r i (buf, preds, rng)).2.1 =
        (rec_loop_013 cfg steps r i (buf, preds)).2 := by
  intro r
  induction r with
  | zero => intro i buf preds rng; exact ⟨rfl, rfl⟩
  | succ r ih =>
    intro i buf preds rng
    rw [rec_loop, rec_loop_013]
    simp only [recursive_step]
    exact ih (i + 1) _ _ _

theorem recursive_predict_noRes_eq_013 (cfg : RecCfg) (steps : ℕ) (lw : List ℚ) (rng : Rng) :
    (_recursive_predict cfg steps lw .noRes rng).1 = _recursive_predict_013 cfg steps lw := by
  unfold _recursive_predict _recursive_predict_013
  exact (rec_loop_noRes_eq_013 cfg steps steps 0 _ _ rng).2

theorem create_predict_inputs_no_boot (F : Forecaster) (steps : ℕ)
    (lw : Option (List ℚ)) (ex : Option (List Row)) (isr br : Bool) :
    _create_predict_inputs F steps lw ex false isr br =
    _create_predict_inputs_013 F steps lw ex := by
  unfold _create_predict_inputs _create_predict_inputs_013
  cases h : lw.orElse (fun _ => F.last_window_) with
  | none => rfl
  | some w => simp

/-- C10: for identical arguments (steps, last_window, exog), the current
prediction path `predict` and the legacy path `predict_013` return equal
predicted values, and the two recursive engines (`_recursive_predict` with no
residuals and `_recursive_predict_013`) compute the same sequence. -/
theorem claim_C10 :
    (∀ (F : Forecaster) (steps : ℕ) (lw : Option (List ℚ)) (ex : Option (List Row)),
      (predict F steps lw ex).1 = (predict_013 F steps lw ex).1) ∧
    (∀ (cfg : RecCfg) (steps : ℕ) (lw : List ℚ) (rng : Rng),
      (_recursive_predict cfg steps lw .noRes rng).1 = _recursive_predict_013 cfg steps lw) := by
  constructor
  · intro F steps lw ex
    unfold predict predict_013
    rw [create_predict_inputs_no_boot]
    cases h : _create_predict_inputs_013 F steps lw ex with
    | error e => rfl
    | ok t =>
      obtain ⟨lwv, exv, F2⟩ := t
      simp only
      rw [recursive_predict_noRes_eq_013]
  · exact fun cfg steps lw rng => recursive_predict_noRes_eq_013 cfg steps lw rng


theorem init_le_foldl_max : ∀ (lags : List ℕ) (a : ℕ), a ≤ lags.foldl max a
  | [], _ => le_refl _
  | x :: xs, a => le_trans (le_max_left a x) (init_le_foldl_max xs (max a x))

theorem mem_le_foldl_max : ∀ (lags : List ℕ) (a : ℕ), ∀ l ∈ lags, l ≤ lags.foldl max a
  | x :: xs, a, l, h => by
    rcases List.mem_cons.mp h with h1 | h2
    · subst h1
      exact le_trans (le_max_right a l) (init_le_foldl_max xs (max a l))
    · exact mem_le_foldl_max xs (max a x) l h2

theorem diffOnce_length (y : List ℚ) : (diffOnce y).length = y.length := by
  cases y with
  | nil => rfl
  | cons x xs => simp [diffOnce]

theorem diffIter_length : ∀ (d : ℕ) (y : List ℚ), (diffIter d y).length = y.length
  | 0, _ => rfl
  | d + 1, y => by rw [diffIter, diffIter_length d, diffOnce_length]

theorem applyFwd_length (t : Option Transformer) (y : List ℚ) :
    (applyFwd t y).length = y.length := by
  cases t <;> simp [applyFwd]

theorem getD_eq_getElem (l : List ℕ) (i : ℕ) (hi : i < l.length) :
    l.getD i 0 = l[i] := by
  rw [List.getD_eq_getElem?_getD, List.getElem?_eq_getElem hi]
  rfl

theorem create_lags_char (lags : List ℕ) (y : List ℚ) :
    (y.length ≤ lags.foldl max 0 → _create_lags lags y = .error .maxLagTooLarge) ∧
    (lags.foldl max 0 < y.length →
      ∃ X t, _create_lags lags y = .ok (X, t) ∧
        X.length = lags.length ∧
        (∀ i, i < lags.length →
          X.getD i [] = slice y (lags.foldl max 0 - lags.getD i 0)
                              (y.length - lags.getD i 0)) ∧
        (∀ c ∈ X, c.length = y.length - lags.foldl max 0) ∧
        t = y.drop (lags.foldl max 0)) := by
  constructor
  · intro h
    unfold _create_lags
    rw [if_pos h]
  · intro h
    refine ⟨lags.map (fun l =>
        (y.drop (lags.foldl max 0 - l)).take (y.length - lags.foldl max 0)),
      y.drop (lags.foldl max 0), ?_, by simp, ?_, ?_, rfl⟩
    · unfold _create_lags
      rw [if_neg (by omega)]
    · intro i hi
      have hgi : lags.getD i 0 = lags[i] := getD_eq_getElem lags i hi
      have hmem : lags.getD i 0 ∈ lags := by
        rw [hgi]; exact List.getElem_mem hi
      have hlm := mem_le_foldl_max lags 0 _ hmem
      rw [List.getD_eq_getElem?_getD, List.getElem?_map,
          List.getElem?_eq_getElem hi]
      simp only [Option.map_some', Option.getD_some]
      rw [slice, ← hgi]
      rw [show y.length - lags.getD i 0 - (lags.foldl max 0 - lags.getD i 0)
            = y.length - lags.foldl max 0 by omega]
    · intro c hc
      obtain ⟨l, hl, rfl⟩ := List.mem_map.mp hc
      have hlm := mem_le_foldl_max lags 0 l hl
      simp only [List.length_take, List.length_drop]
      omega

theorem train_X_y_shape (F : Forecaster) (y : List ℚ)
    (h : F.max_lag < y.length) :
    ∃ X t, create_train_X_y F y = .ok (X, t) ∧
      X.length = F.lags.length ∧
      (∀ c ∈ X, c.length = y.length - F.max_lag - F.differentiation.getD 0) ∧
      t.length = y.length - F.max_lag - F.differentiation.getD 0 := by
  have hm : F.max_lag = F.lags.foldl max 0 := rfl
  cases hd : F.differentiation with
  | none =>
    set yV := applyFwd F.transformer_y y with hyV
    have hlen : yV.length = y.length := applyFwd_length _ _
    obtain ⟨X, t, hok, hXlen, _, hcols, ht⟩ :=
      (create_lags_char F.lags yV).2 (by rw [hlen]; omega)
    refine ⟨X, t, ?_, hXlen, ?_, ?_⟩
    · unfold create_train_X_y
      rw [hd]
      dsimp only
      rw [← hyV, hok]
    · intro c hc
      have := hcols c hc
      simp only [hd, Option.getD_none]
      omega
    · subst ht
      simp only [hd, Option.getD_none, List.length_drop]
      omega
  | some d =>
    set yV := diffIter d (applyFwd F.transformer_y y) with hyV
    have hlen : yV.length = y.length := by
      rw [hyV, diffIter_length, applyFwd_length]
    obtain ⟨X, t, hok, hXlen, _, hcols, ht⟩ :=
      (create_lags_char F.lags yV).2 (by rw [hlen]; omega)
    refine ⟨X.map (fun c => c.drop d), t.drop d, ?_, by simpa using hXlen, ?_, ?_⟩
    · unfold create_train_X_y
      rw [hd]
      dsimp only
      rw [← hyV, hok]
    · intro c hc
      obtain ⟨c0, hc0, rfl⟩ := List.mem_map.mp hc
      have := hcols c0 hc0
      simp only [hd, Option.getD_some, List.length_drop]
      omega
    · subst ht
      simp only [hd, Option.getD_some, List.length_drop]
      omega

/-- C2: `_create_lags` on a series of length `n` with lag set `lags` and
`max_lag = lags.foldl max 0` raises the input-size error when
`n ≤ max_lag`; otherwise it returns a lag matrix with one column per lag,
column `i` equal to the slice `y[max_lag - lags[i] : n - lags[i]]`, every
column of length `n - max_lag`, and the target `y[max_lag:]`; and
`create_train_X_y` on a fitted forecaster with enough history returns
`n - max_lag - d` training rows, `d` the differencing order (0 if unset). -/
theorem claim_C2 (lags : List ℕ) (y : List ℚ) (F : Forecaster)
    (hF : F.max_lag < y.length) :
    (y.length ≤ lags.foldl max 0 → _create_lags lags y = .error .maxLagTooLarge) ∧
    (lags.foldl max 0 < y.length →
      ∃ X t, _create_lags lags y = .ok (X, t) ∧
        X.length = lags.length ∧
        (∀ i, i < lags.length →
          X.getD i [] = slice y (lags.foldl max 0 - lags.getD i 0)
                              (y.length - lags.getD i 0)) ∧
        (∀ c ∈ X, c.length = y.length - lags.foldl max 0) ∧
        t = y.drop (lags.foldl max 0)) ∧
    (∃ X t, create_train_X_y F y = .ok (X, t) ∧
      X.length = F.lags.length ∧
      (∀ c ∈ X, c.length = y.length - F.max_lag - F.differentiation.getD 0) ∧
      t.length = y.length - F.max_lag - F.differentiation.getD 0) :=
  ⟨(create_lags_char lags y).1, (create_lags_char lags y).2, train_X_y_shape F y hF⟩

/-- Witness for C2 at lags `[1,2,3]` on the ten-point series: the history
hypothesis holds and the training matrix has the claimed shape. -/
theorem claim_C2_witness :
    meanF.max_lag < cTrue.length ∧
    (∃ X t, create_train_X_y meanF cTrue = .ok (X, t) ∧
      X.length = meanF.lags.length ∧
      (∀ c ∈ X, c.length = cTrue.length - meanF.max_lag - meanF.differentiation.getD 0) ∧
      t.length = cTrue.length - meanF.max_lag - meanF.differentiation.getD 0) :=
  ⟨by decide, (claim_C2 [1, 2, 3] cTrue meanF (by decide)).2.2⟩


theorem zip_replicate_map (f : ℕ → Row → ℚ) (X : Row) :
    ∀ (S : List ℕ),
      (List.zip S (List.replicate S.length X)).map (fun p => f p.1 p.2) =
      S.map (fun s => f s X)
  | [] => rfl
  | s :: S => by
    simp only [List.length_cons, List.replicate_succ, List.zip_cons_cons, List.map_cons]
    rw [zip_replicate_map f X S]

/-- C3: for a fitted direct forecaster, `predict(steps=S)` for a requested
list `S` of horizons returns exactly one row per requested horizon, in the
requested order, each obtained by applying that horizon's own regressor to
the same fixed `X_lags` row built from the last window (conjunct 1); the
output depends only on the regressors of the horizons in `S`, so no other
horizon's model is invoked (conjunct 2); and with three constant per-horizon
estimators `(c1,c2,c3)`, `predict(steps=[1,3])` returns exactly `(c1, c3)`
(conjunct 3). -/
theorem claim_C3 :
    (∀ (FD : ForecasterDirect) (S : List ℕ) (lw : List (List ℚ)),
      FD.is_fitted = true →
      direct_predict FD (.list S) (some lw) none =
        .ok (S.map (fun s => FD.regressors_ s (x_lags FD lw)))) ∧
    (∀ (FD : ForecasterDirect) (r1 r2 : ℕ → Reg) (S : List ℕ)
        (lw : Option (List (List ℚ))) (ex : Option (List Row)),
      (∀ s ∈ S, r1 s = r2 s) →
      direct_predict { FD with regressors_ := r1 } (.list S) lw ex =
        direct_predict { FD with regressors_ := r2 } (.list S) lw ex) ∧
    (∀ c1 c2 c3 : ℚ,
      direct_predict (constDirect c1 c2 c3) (.list [1, 3]) none none = .ok [c1, c3]) := by
  refine ⟨?_, ?_, ?_⟩
  · intro FD S lw hf
    unfold direct_predict prepare_steps_direct
    rw [show ((some lw).orElse fun _ => FD.last_window_) = some lw from rfl]
    dsimp only
    simp only [hf, not_true, if_false]
    rw [zip_replicate_map]
  · intro FD r1 r2 S lw ex hagree
    have hx1 : x_lags { FD with regressors_ := r1 } = x_lags FD := rfl
    have hx2 : x_lags { FD with regressors_ := r2 } = x_lags FD := rfl
    unfold direct_predict prepare_steps_direct
    dsimp only
    rw [hx1, hx2]
    cases h : lw.orElse (fun _ => FD.last_window_) with
    | none => rfl
    | some w =>
      by_cases hf : FD.is_fitted
      · simp only [hf, not_true, if_false]
        congr 1
        apply List.map_congr_left
        intro p hp
        have hmem := (List.of_mem_zip hp).1
        rw [hagree p.1 hmem]
      · simp [hf]
  · intro c1 c2 c3
    rfl

/-- Witness for C3: the three conjuncts applied at a concrete fitted direct
forecaster with constant estimators `(4, 5, 6)` and requested steps `[1,3]`,
including a regressor family perturbed only at the never-invoked step 2. -/
theorem claim_C3_witness :
    direct_predict (constDirect 4 5 6) (.list [1, 3]) (some [[7]]) none =
      .ok ([1, 3].map (fun s =>
        (constDirect 4 5 6).regressors_ s (x_lags (constDirect 4 5 6) [[7]]))) ∧
    direct_predict
        { constDirect 4 5 6 with regressors_ := (constDirect 4 5 6).regressors_ }
        (.list [1, 3]) none none =
      direct_predict
        { constDirect 4 5 6 with
            regressors_ := fun s x =>
              if s = 2 then 99 else (constDirect 4 5 6).regressors_ s x }
        (.list [1, 3]) none none ∧
    direct_predict (constDirect 4 5 6) (.list [1, 3]) none none = .ok [4, 6] :=
  ⟨claim_C3.1 (constDirect 4 5 6) [1, 3] [[7]] rfl,
   claim_C3.2.1 (constDirect 4 5 6) _ _ [1, 3] none none
     (by intro s hs; fin_cases hs <;> rfl),
   claim_C3.2.2 4 5 6⟩


theorem recursive_predict_length (cfg : RecCfg) (steps : ℕ) (lw : List ℚ)
    (res : Residuals) (rng : Rng) :
    (_recursive_predict cfg steps lw res rng).1.length = steps := by
  unfold _recursive_predict
  rw [(rec_loop_length cfg res steps steps 0 _).2]
  simp

theorem cumsumFrom_length (a : ℚ) : ∀ (l : List ℚ), (cumsumFrom a l).length = l.length
  | [] => rfl
  | x :: xs => by rw [cumsumFrom, List.length_cons, List.length_cons,
      cumsumFrom_length (a + x) xs]

theorem inverseNextWindow_length (dfr : Differentiator) (preds : List ℚ) :
    (dfr.inverseNextWindow preds).length = preds.length := by
  unfold Differentiator.inverseNextWindow
  induction dfr.anchor with
  | nil => rfl
  | cons a l ih => rw [List.foldr_cons, cumsumFrom_length, ih]

theorem invDiff_length (F : Forecaster) (preds : List ℚ) :
    (invDiff F preds).length = preds.length := by
  unfold invDiff
  cases F.differentiation with
  | none => rfl
  | some d => cases F.differentiator with
    | none => rfl
    | some dfr => exact inverseNextWindow_length dfr preds

theorem applyInv_length (t : Option Transformer) (xs : List ℚ) :
    (applyInv t xs).length = xs.length := by
  cases t <;> simp [applyInv]

theorem boot_iteration_fst (cfg : RecCfg) (steps : ℕ) (lwv : List ℚ)
    (resFor : ℕ → Residuals) (acc : List (List ℚ) × Rng) (b : ℕ) :
    (boot_iteration cfg steps lwv resFor acc b).1 =
      acc.1 ++ [(_recursive_predict cfg steps lwv (resFor b) acc.2).1] := rfl

theorem boot_fold_shape (cfg : RecCfg) (steps : ℕ) (lwv : List ℚ)
    (resFor : ℕ → Residuals) :
    ∀ (L : List ℕ) (acc : List (List ℚ) × Rng),
      ((L.foldl (boot_iteration cfg steps lwv resFor) acc).1.length
        = acc.1.length + L.length) ∧
      (∀ c ∈ (L.foldl (boot_iteration cfg steps lwv resFor) acc).1,
        c ∈ acc.1 ∨ c.length = steps)
  | [], acc => by
    refine ⟨by simp, ?_⟩
    intro c hc
    exact Or.inl hc
  | b :: L, acc => by
    rw [List.foldl_cons]
    have ih := boot_fold_shape cfg steps lwv resFor L (boot_iteration cfg steps lwv resFor acc b)
    constructor
    · rw [ih.1, boot_iteration_fst, List.length_append]
      simp
      omega
    · intro c hc
      rcases ih.2 c hc with h | h
      · rw [boot_iteration_fst] at h
        simp only [List.mem_append, List.mem_singleton] at h
        rcases h with h | h
        · exact Or.inl h
        · subst h
          exact Or.inr (recursive_predict_length cfg steps lwv _ _)
      · exact Or.inr h

theorem rngChoiceReplace_length : ∀ (pool : List ℚ) (n : ℕ) (rng : Rng),
    (rngChoiceReplace pool n rng).1.length = n
  | _, 0, _ => rfl
  | pool, n + 1, rng => by
    rw [rngChoiceReplace]
    simp only [List.length_cons]
    rw [rngChoiceReplace_length pool n]

theorem direct_boot_rows_shape (f : ℕ → List ℚ) (nBoot : ℕ) :
    ∀ (pairs : List (ℕ × ℚ)) (r : Rng),
      (direct_boot_rows f nBoot pairs r).1.length = pairs.length ∧
      ∀ row ∈ (direct_boot_rows f nBoot pairs r).1, row.length = nBoot
  | [], r => by simp [direct_boot_rows]
  | sp :: rest, r => by
    rw [direct_boot_rows]
    simp only [List.length_cons, List.mem_cons]
    have ih := direct_boot_rows_shape f nBoot rest
      (rngChoiceReplace (f sp.1) nBoot r).2
    refine ⟨by rw [ih.1], ?_⟩
    intro row hrow
    rcases hrow with h | h
    · subst h
      rw [List.length_map, rngChoiceReplace_length]
    · exact ih.2 row h

theorem direct_predict_length (FD : ForecasterDirect) (sa : StepsArg)
    (lw : Option (List (List ℚ))) (ex : Option (List Row)) (preds : List ℚ)
    (h : direct_predict FD sa lw ex = .ok preds) :
    preds.length = (prepare_steps_direct FD.steps sa).length := by
  unfold direct_predict at h
  cases hlw : lw.orElse (fun _ => FD.last_window_) with
  | none => rw [hlw] at h; exact absurd h (by simp)
  | some w =>
    rw [hlw] at h
    dsimp only at h
    split at h
    · exact absurd h (by simp)
    · simp only [Except.ok.injEq] at h
      subst h
      rw [List.length_map, List.length_zip]
      cases ex with
      | none => simp
      | some e => simp

theorem c4_direct_ambient (FD : ForecasterDirect) (sa : StepsArg)
    (lw : Option (List (List ℚ))) (ex : Option (List Row))
    (nBoot randomState : ℕ) (isr : Bool) (g1 g2 : Rng) :
    (direct_predict_bootstrapping FD sa lw ex nBoot randomState isr g1).1 =
      (direct_predict_bootstrapping FD sa lw ex nBoot randomState isr g2).1 ∧
    (direct_predict_bootstrapping FD sa lw ex nBoot randomState isr g1).2 = g1 := by
  unfold direct_predict_bootstrapping
  constructor
  · dsimp only
    split
    · rfl
    · cases direct_predict FD sa lw ex with
      | error e => rfl
      | ok preds => rfl
  · dsimp only
    split
    · rfl
    · cases direct_predict FD sa lw ex with
      | error e => rfl
      | ok preds => rfl

theorem c4_direct_shape (FD : ForecasterDirect) (sa : StepsArg)
    (lw : Option (List (List ℚ))) (ex : Option (List Row))
    (nBoot randomState : ℕ) (isr : Bool) (g : Rng) (M : List (List ℚ))
    (hM : (direct_predict_bootstrapping FD sa lw ex nBoot randomState isr g).1 = .ok M) :
    M.length = (prepare_steps_direct FD.steps sa).length ∧
      ∀ row ∈ M, row.length = nBoot := by
  unfold direct_predict_bootstrapping at hM
  dsimp only at hM
  split at hM
  · exact absurd hM (by simp)
  · rename_i d hd
    cases hp : direct_predict FD sa lw ex with
    | error e => rw [hp] at hM; exact absurd hM (by simp)
    | ok preds =>
      rw [hp] at hM
      simp only [Except.ok.injEq] at hM
      subst hM
      have hsh := direct_boot_rows_shape (fun s => (dictGet d s).getD []) nBoot
        ((prepare_steps_direct FD.steps sa).zip preds) (default_rng randomState)
      constructor
      · rw [List.length_map, hsh.1, List.length_zip,
          direct_predict_length FD sa lw ex preds hp]
        exact min_self _
      · intro row hrow
        obtain ⟨row0, hrow0, rfl⟩ := List.mem_map.mp hrow
        rw [applyInv_length]
        exact hsh.2 row0 hrow0

/-- C4: for fixed inputs and a fixed `random_state`, both bootstrapping
engines — the recursive `ForecasterAutoreg.predict_bootstrapping` and the
direct `ForecasterAutoregMultiVariate.predict_bootstrapping` — return the
same ensemble whatever the ambient global random state is (and leave that
ambient state untouched), so two calls with the same seed produce identical
ensembles; and a successful ensemble is a (steps, n_boot) matrix: `n_boot`
columns of `steps` values for the recursive engine, one `n_boot`-wide row
per requested horizon for the direct engine. -/
theorem claim_C4 :
    (∀ (F : Forecaster) (steps : ℕ) (lw : Option (List ℚ)) (ex : Option (List Row))
        (nBoot randomState : ℕ) (isr br : Bool) (g1 g2 : Rng),
      (predict_bootstrapping F steps lw ex nBoot randomState isr br g1).1 =
        (predict_bootstrapping F steps lw ex nBoot randomState isr br g2).1 ∧
      (predict_bootstrapping F steps lw ex nBoot randomState isr br g1).2.2 = g1) ∧
    (∀ (F : Forecaster) (steps : ℕ) (lw : Option (List ℚ)) (ex : Option (List Row))
        (nBoot randomState : ℕ) (isr br : Bool) (g : Rng) (M : List (List ℚ)),
      (predict_bootstrapping F steps lw ex nBoot randomState isr br g).1 = .ok M →
      M.length = nBoot ∧ ∀ c ∈ M, c.length = steps) ∧
    (∀ (FD : ForecasterDirect) (sa : StepsArg) (lw : Option (List (List ℚ)))
        (ex : Option (List Row)) (nBoot randomState : ℕ) (isr : Bool) (g1 g2 : Rng),
      (direct_predict_bootstrapping FD sa lw ex nBoot randomState isr g1).1 =
        (direct_predict_bootstrapping FD sa lw ex nBoot randomState isr g2).1 ∧
      (direct_predict_bootstrapping FD sa lw ex nBoot randomState isr g1).2 = g1) ∧
    (∀ (FD : ForecasterDirect) (sa : StepsArg) (lw : Option (List (List ℚ)))
        (ex : Option (List Row)) (nBoot randomState : ℕ) (isr : Bool) (g : Rng)
        (M : List (List ℚ)),
      (direct_predict_bootstrapping FD sa lw ex nBoot randomState isr g).1 = .ok M →
      M.length = (prepare_steps_direct FD.steps sa).length ∧
        ∀ c ∈ M, c.length = nBoot) := by
  refine ⟨?_, ?_, ?_, ?_⟩
  · intro F steps lw ex nBoot randomState isr br g1 g2
    unfold predict_bootstrapping
    cases _create_predict_inputs F steps lw ex true isr br with
    | error e => exact ⟨rfl, rfl⟩
    | ok t => exact ⟨rfl, rfl⟩
  · intro F steps lw ex nBoot randomState isr br g M hM
    unfold predict_bootstrapping at hM
    cases hin : _create_predict_inputs F steps lw ex true isr br with
    | error e => rw [hin] at hM; exact absurd hM (by simp)
    | ok t =>
      obtain ⟨lwv, exv, F2⟩ := t
      rw [hin] at hM
      simp only at hM
      have hcols := Except.ok.inj hM
      subst hcols
      constructor
      · rw [List.length_map]
        rw [(boot_fold_shape _ _ _ _ (List.range nBoot) ([], _)).1]
        simp
      · intro c hc
        obtain ⟨c0, hc0, rfl⟩ := List.mem_map.mp hc
        rcases (boot_fold_shape _ _ _ _ (List.range nBoot) ([], _)).2 c0 hc0 with h | h
        · simp at h
        · rw [applyInv_length, invDiff_length, h]
  · exact fun FD sa lw ex nBoot randomState isr g1 g2 =>
      c4_direct_ambient FD sa lw ex nBoot randomState isr g1 g2
  · exact fun FD sa lw ex nBoot randomState isr g M hM =>
      c4_direct_shape FD sa lw ex nBoot randomState isr g M hM

/-- Witness for C4: for each engine, a concrete one-step, one-replicate
bootstrap is independent of the ambient generator, and the shape conjunct
applied at its concretely evaluated ensemble (`[[9]]` recursive, `[[5]]`
direct). -/
theorem claim_C4_witness :
    (predict_bootstrapping meanF 1 (some [8, 9, 10]) none 1 123 true false
        (default_rng 7)).1 =
      (predict_bootstrapping meanF 1 (some [8, 9, 10]) none 1 123 true false
        (default_rng 99)).1 ∧
    (([[9]] : List (List ℚ)).length = 1 ∧ ∀ c ∈ ([[9]] : List (List ℚ)), c.length = 1) ∧
    (direct_predict_bootstrapping (constDirect 5 0 0) (.int 1) none none 1 123 true
        (default_rng 7)).1 =
      (direct_predict_bootstrapping (constDirect 5 0 0) (.int 1) none none 1 123 true
        (default_rng 99)).1 ∧
    (([[5]] : List (List ℚ)).length =
        (prepare_steps_direct (constDirect 5 0 0).steps (.int 1)).length ∧
      ∀ c ∈ ([[5]] : List (List ℚ)), c.length = 1) :=
  ⟨(claim_C4.1 meanF 1 (some [8, 9, 10]) none 1 123 true false
      (default_rng 7) (default_rng 99)).1,
   claim_C4.2.1 meanF 1 (some [8, 9, 10]) none 1 123 true false (default_rng 7) [[9]]
     (by
       norm_num [predict_bootstrapping, _create_predict_inputs, _recursive_predict,
         rec_loop, recursive_step, meanF, meanReg, lag_row, exog_row, applyFwd,
         invDiff, Forecaster.window_size_diff, Forecaster.max_lag, applyInv,
         boot_iteration, rngChoiceReplace, Rng.choiceOne, Rng.natBelow, default_rng,
         rngMix, List.range_succ, List.range_zero, List.foldl_cons, List.foldl_nil,
         List.foldl_append, List.getD]),
   (claim_C4.2.2.1 (constDirect 5 0 0) (.int 1) none none 1 123 true
      (default_rng 7) (default_rng 99)).1,
   claim_C4.2.2.2 (constDirect 5 0 0) (.int 1) none none 1 123 true
     (default_rng 7) [[5]]
     (by
       norm_num [direct_predict_bootstrapping, direct_residual_check, dictGet,
         direct_boot_rows, direct_predict, prepare_steps_direct, x_lags,
         series_lag_row, constDirect, rngChoiceReplace, Rng.choiceOne, Rng.natBelow,
         default_rng, rngMix, applyInv, List.range_succ, List.range_zero,
         List.find?, List.all, List.contains])⟩


/-- C9: `predict_bootstrapping` with `in_sample_residuals=False` on a fitted
forecaster raises the out-of-sample-pool ValueError before computing any
prediction when the required pool is uninitialized (`out_sample_residuals_`
is None in flat mode, `out_sample_residuals_by_bin_` is None in binned mode),
and the failed call returns the forecaster state (and ambient generator)
unchanged — the check precedes the differentiator refit, the only mutation on
this path. -/
theorem claim_C9 (F : Forecaster) (steps : ℕ) (w : List ℚ) (ex : Option (List Row))
    (nBoot randomState : ℕ) (br : Bool) (g : Rng)
    (hf : F.is_fitted = true)
    (hw : F.window_size_diff ≤ w.length)
    (hpool : if br then F.out_sample_residuals_by_bin_ = none
             else F.out_sample_residuals_ = none) :
    predict_bootstrapping F steps (some w) ex nBoot randomState false br g =
      (.error (if br then .outSampleResidualsByBinNone else .outSampleResidualsNone),
       F, g) := by
  unfold predict_bootstrapping _create_predict_inputs
  rw [show ((some w).orElse fun _ => F.last_window_) = some w from rfl]
  cases br with
  | false =>
    simp only [Bool.false_eq_true, if_false] at hpool ⊢
    rw [if_neg (by simp [hf]), if_neg (by omega), if_pos (by simp [hpool])]
  | true =>
    simp only [if_true] at hpool ⊢
    rw [if_neg (by simp [hf]), if_neg (by omega),
        if_neg (by simp), if_pos (by simp [hpool])]

/-- Witness for C9: the flat-mode error on a concrete fitted forecaster with
no out-of-sample residuals set. -/
theorem claim_C9_witness :
    predict_bootstrapping meanF 1 (some [8, 9, 10]) none 2 123 false false
        (default_rng 0) =
      (.error .outSampleResidualsNone, meanF, default_rng 0) := by
  have h := claim_C9 meanF 1 [8, 9, 10] none 2 123 false (default_rng 0) rfl
    (by decide) (by simp [meanF])
  simpa using h


theorem sameExceptDifferentiator_refl (F : Forecaster) : sameExceptDifferentiator F F := by
  unfold sameExceptDifferentiator
  refine ⟨rfl, rfl, rfl, rfl, rfl, rfl, rfl, rfl, rfl, rfl, rfl, rfl, rfl⟩

theorem create_inputs_state (F : Forecaster) (steps : ℕ) (lw : Option (List ℚ))
    (ex : Option (List Row)) (pb isr br : Bool) :
    ∀ a b F2, _create_predict_inputs F steps lw ex pb isr br = .ok (a, b, F2) →
      sameExceptDifferentiator F F2 ∧ (F.differentiation = none → F2 = F) := by
  unfold _create_predict_inputs
  cases lw.orElse (fun _ => F.last_window_) with
  | none => intro a b F2 h; exact absurd h (by simp)
  | some w =>
    intro a b F2 h
    dsimp only at h
    by_cases h1 : F.is_fitted
    case neg => rw [if_pos (by simp [h1])] at h; exact absurd h (by simp)
    case pos =>
    rw [if_neg (by simp [h1])] at h
    by_cases h2 : w.length < F.window_size_diff
    case pos => rw [if_pos h2] at h; exact absurd h (by simp)
    case neg =>
    rw [if_neg h2] at h
    by_cases h3 : pb = true ∧ ¬isr = true ∧ ¬br = true ∧ F.out_sample_residuals_ = none
    case pos => rw [if_pos h3] at h; exact absurd h (by simp)
    case neg =>
    rw [if_neg h3] at h
    by_cases h4 : pb = true ∧ ¬isr = true ∧ br = true ∧ F.out_sample_residuals_by_bin_ = none
    case pos => rw [if_pos h4] at h; exact absurd h (by simp)
    case neg =>
    rw [if_neg h4] at h
    cases hd : F.differentiation with
    | none =>
      rw [hd] at h
      cases hdfr : F.differentiator with
      | none =>
        rw [hdfr] at h
        simp only [Except.ok.injEq, Prod.mk.injEq] at h
        obtain ⟨-, -, hF⟩ := h
        subst hF
        exact ⟨sameExceptDifferentiator_refl F, fun _ => rfl⟩
      | some dfr =>
        rw [hdfr] at h
        simp only [Except.ok.injEq, Prod.mk.injEq] at h
        obtain ⟨-, -, hF⟩ := h
        subst hF
        exact ⟨sameExceptDifferentiator_refl F, fun _ => rfl⟩
    | some d =>
      rw [hd] at h
      cases hdfr : F.differentiator with
      | none =>
        rw [hdfr] at h
        simp only [Except.ok.injEq, Prod.mk.injEq] at h
        obtain ⟨-, -, hF⟩ := h
        subst hF
        exact ⟨sameExceptDifferentiator_refl F, fun _ => rfl⟩
      | some dfr =>
        rw [hdfr] at h
        simp only [Except.ok.injEq, Prod.mk.injEq] at h
        obtain ⟨-, -, hF⟩ := h
        subst hF
        constructor
        · unfold sameExceptDifferentiator
          refine ⟨rfl, rfl, rfl, hd.symm, rfl, rfl, rfl, rfl, rfl, rfl, rfl, rfl, rfl⟩
        · intro hnone
          exact absurd hnone (by simp)

/-- Counterexample for C8: with order-1 differencing configured, calling
`predict` with a caller-supplied last window refits the differentiator to that
window, so the differentiator field differs after the call (anchor 5 becomes
anchor 10): predict is not free of state mutation on every listed field. -/
theorem claim_C8_counterexample :
    ((predict diffF 1 (some [0, 10]) none).2).differentiator ≠ diffF.differentiator := by
  decide

/-- C8 (amended): `predict` and `predict_bootstrapping` leave every
forecaster field unchanged except the differentiator — last_window_, the
residual pools, the fitted binner and the regressor are identical before and
after the call — and when no differencing is configured the state is entirely
unchanged.  The differentiator itself is refit to the supplied window
(`self.differentiator.fit_transform` at source line 961), which the original
claim ruled out. -/
theorem claim_C8 :
    (∀ (F : Forecaster) (steps : ℕ) (lw : Option (List ℚ)) (ex : Option (List Row)),
      sameExceptDifferentiator F (predict F steps lw ex).2 ∧
      (F.differentiation = none → (predict F steps lw ex).2 = F)) ∧
    (∀ (F : Forecaster) (steps : ℕ) (lw : Option (List ℚ)) (ex : Option (List Row))
        (nBoot randomState : ℕ) (isr br : Bool) (g : Rng),
      sameExceptDifferentiator F
        (predict_bootstrapping F steps lw ex nBoot randomState isr br g).2.1 ∧
      (F.differentiation = none →
        (predict_bootstrapping F steps lw ex nBoot randomState isr br g).2.1 = F)) := by
  constructor
  · intro F steps lw ex
    unfold predict
    cases hin : _create_predict_inputs F steps lw ex false true false with
    | error e => exact ⟨sameExceptDifferentiator_refl F, fun _ => rfl⟩
    | ok t =>
      obtain ⟨a, b, F2⟩ := t
      exact create_inputs_state F steps lw ex false true false a b F2 hin
  · intro F steps lw ex nBoot randomState isr br g
    unfold predict_bootstrapping
    cases hin : _create_predict_inputs F steps lw ex true isr br with
    | error e => exact ⟨sameExceptDifferentiator_refl F, fun _ => rfl⟩
    | ok t =>
      obtain ⟨a, b, F2⟩ := t
      exact create_inputs_state F steps lw ex true isr br a b F2 hin

/-- Witness for C8: with no differencing configured, the concrete mean
forecaster is returned entirely unchanged by `predict`. -/
theorem claim_C8_witness :
    (predict meanF 1 (some [8, 9, 10]) none).2 = meanF :=
  (claim_C8.1 meanF 1 (some [8, 9, 10]) none).2 rfl


theorem binner_intervals_of_eq (edges : List ℚ) :
    binner_intervals_of edges =
      (List.range (edges.length - 1)).map
        (fun i => (edges.getD i 0, some (edges.getD (i + 1) 0))) := by
  unfold binner_intervals_of
  apply List.map_congr_left
  intro i hi
  have : i < edges.length - 1 := List.mem_range.mp hi
  rw [if_pos (by omega)]

/-- C7 (amended): after every fit, `binner_intervals` has one entry per bin
`i`, equal to `(bin_edges[i], Some bin_edges[i+1])` — including the last bin,
whose upper bound is the last edge, never None: the `i + 1 < len(edges)` guard
in the source dictionary comprehension is always true for
`i in range(len(edges) - 1)`, so the None branch is unreachable. -/
theorem claim_C7 :
    ∀ (nBins randomState : ℕ) (yTrue yPred : List ℚ),
      (_binning_in_sample_residuals nBins randomState yTrue yPred).intervals =
        (List.range
          ((_binning_in_sample_residuals nBins randomState yTrue yPred).binner.edges.length - 1)).map
          (fun i =>
            ((_binning_in_sample_residuals nBins randomState yTrue yPred).binner.edges.getD i 0,
             some ((_binning_in_sample_residuals nBins randomState yTrue yPred).binner.edges.getD (i + 1) 0))) :=
  fun _ _ _ _ => binner_intervals_of_eq _

/-- Counterexample for C7: on a concrete fit the last bin interval's upper
bound is a real edge, not None as the claim states. -/
theorem claim_C7_counterexample :
    ((_binning_in_sample_residuals 10 95123 cTrue cPred).intervals.getLastD (0, none)).2
      ≠ none := by
  decide


theorem mem_insertKey (k x : ℕ) : ∀ (l : List ℕ), x ∈ insertKey k l ↔ x = k ∨ x ∈ l
  | [] => by simp [insertKey]
  | y :: ys => by
    unfold insertKey
    by_cases h1 : k < y
    · rw [if_pos h1]
      simp [or_comm, or_assoc, or_left_comm]
    · rw [if_neg h1]
      by_cases h2 : k = y
      · rw [if_pos h2]
        subst h2
        constructor
        · intro h; exact Or.inr h
        · intro h
          rcases h with h | h
          · subst h; exact List.mem_cons_self _ _
          · exact h
      · rw [if_neg h2]
        rw [List.mem_cons, mem_insertKey k x ys, List.mem_cons]
        tauto

theorem pairwise_insertKey (k : ℕ) : ∀ (l : List ℕ),
    l.Pairwise (· < ·) → (insertKey k l).Pairwise (· < ·)
  | [], _ => by simp [insertKey]
  | y :: ys, h => by
    unfold insertKey
    obtain ⟨hy, hys⟩ := List.pairwise_cons.mp h
    by_cases h1 : k < y
    · rw [if_pos h1]
      refine List.pairwise_cons.mpr ⟨?_, h⟩
      intro z hz
      rcases List.mem_cons.mp hz with rfl | hz
      · exact h1
      · exact lt_trans h1 (hy z hz)
    · rw [if_neg h1]
      by_cases h2 : k = y
      · rw [if_pos h2]; exact h
      · rw [if_neg h2]
        refine List.pairwise_cons.mpr ⟨?_, pairwise_insertKey k ys hys⟩
        intro z hz
        rcases (mem_insertKey k z ys).mp hz with rfl | hz
        · omega
        · exact hy z hz

theorem mem_foldl_insertKey (x : ℕ) : ∀ (ks : List ℕ) (acc : List ℕ),
    x ∈ ks.foldl (fun a k => insertKey k a) acc ↔ x ∈ acc ∨ x ∈ ks
  | [], acc => by simp
  | k :: ks, acc => by
    rw [List.foldl_cons, mem_foldl_insertKey x ks (insertKey k acc), mem_insertKey,
      List.mem_cons]
    tauto

theorem pairwise_foldl_insertKey : ∀ (ks : List ℕ) (acc : List ℕ),
    acc.Pairwise (· < ·) → (ks.foldl (fun a k => insertKey k a) acc).Pairwise (· < ·)
  | [], _, h => h
  | k :: ks, acc, h =>
    pairwise_foldl_insertKey ks (insertKey k acc) (pairwise_insertKey k acc h)

theorem mem_sortedKeys (x : ℕ) (pairs : List (ℕ × ℚ)) :
    x ∈ sortedKeys pairs ↔ x ∈ pairs.map Prod.fst := by
  unfold sortedKeys
  rw [mem_foldl_insertKey]
  simp

theorem sortedKeys_nodup (pairs : List (ℕ × ℚ)) : (sortedKeys pairs).Nodup :=
  List.Pairwise.imp (fun h => Nat.ne_of_lt h)
    (pairwise_foldl_insertKey (pairs.map Prod.fst) [] (by simp))


theorem sum_map_add (f g : ℕ → ℕ) : ∀ (ks : List ℕ),
    (ks.map (fun k => f k + g k)).sum = (ks.map f).sum + (ks.map g).sum
  | [] => rfl
  | k :: ks => by
    simp only [List.map_cons, List.sum_cons, sum_map_add f g ks]
    omega

theorem sum_ite_eq_zero (a : ℕ) : ∀ (ks : List ℕ), a ∉ ks →
    (ks.map (fun k => if (a == k) = true then 1 else 0)).sum = 0
  | [], _ => rfl
  | k :: ks, h => by
    have hk : a ≠ k := fun hc => h (hc ▸ List.mem_cons_self _ _)
    simp only [List.map_cons, List.sum_cons]
    rw [if_neg (by simpa using hk), sum_ite_eq_zero a ks (fun hc => h (List.mem_cons_of_mem _ hc))]

theorem sum_ite_eq_one (a : ℕ) : ∀ (ks : List ℕ), ks.Nodup → a ∈ ks →
    (ks.map (fun k => if (a == k) = true then 1 else 0)).sum = 1
  | [], _, h => absurd h (List.not_mem_nil a)
  | k :: ks, hnd, h => by
    obtain ⟨hk, hnd'⟩ := List.nodup_cons.mp hnd
    simp only [List.map_cons, List.sum_cons]
    by_cases hak : a = k
    · subst hak
      rw [if_pos (by simp), sum_ite_eq_zero a ks hk]
    · rw [if_neg (by simpa using hak)]
      have ha : a ∈ ks := by
        rcases List.mem_cons.mp h with h1 | h1
        · exact absurd h1 hak
        · exact h1
      rw [sum_ite_eq_one a ks hnd' ha]

theorem sum_countP_partition (ks : List ℕ) (hnd : ks.Nodup) :
    ∀ (pairs : List (ℕ × ℚ)), (∀ p ∈ pairs, p.1 ∈ ks) →
      (ks.map (fun k => pairs.countP (fun p => p.1 == k))).sum = pairs.length
  | [], _ => by simp
  | p :: rest, hcov => by
    have hrest : ∀ q ∈ rest, q.1 ∈ ks :=
      fun q hq => hcov q (List.mem_cons_of_mem _ hq)
    have hsum : (ks.map (fun k => (p :: rest).countP (fun q => q.1 == k))).sum =
        (ks.map (fun k => rest.countP (fun q => q.1 == k) +
          if (p.1 == k) = true then 1 else 0)).sum := by
      congr 1
      apply List.map_congr_left
      intro k _
      rw [List.countP_cons]
    rw [hsum, sum_map_add, sum_countP_partition ks hnd rest hrest,
        sum_ite_eq_one p.1 ks hnd (hcov p (List.mem_cons_self _ _))]
    simp


theorem groupByBin_length_sum (pairs : List (ℕ × ℚ)) :
    ((groupByBin pairs).map (fun kv => kv.2.length)).sum = pairs.length := by
  unfold groupByBin
  rw [List.map_map]
  have hmap : ((fun kv : ℕ × List ℚ => kv.2.length) ∘
      (fun k => (k, (pairs.filter (fun p => p.1 == k)).map Prod.snd))) =
      fun k => pairs.countP (fun p => p.1 == k) := by
    funext k
    simp only [Function.comp_apply, List.length_map]
    exact (List.countP_eq_length_filter _ _).symm
  rw [hmap]
  exact sum_countP_partition (sortedKeys pairs) (sortedKeys_nodup pairs) pairs
    (fun p hp => (mem_sortedKeys p.1 pairs).mpr (List.mem_map.mpr ⟨p, hp, rfl⟩))

theorem groupByBin_nonempty (pairs : List (ℕ × ℚ)) :
    ∀ kv ∈ groupByBin pairs, kv.2 ≠ [] := by
  intro kv hkv
  unfold groupByBin at hkv
  obtain ⟨k, hk, rfl⟩ := List.mem_map.mp hkv
  obtain ⟨p, hp, hpk⟩ := List.mem_map.mp ((mem_sortedKeys k pairs).mp hk)
  intro hc
  have : p ∈ pairs.filter (fun q => q.1 == k) :=
    List.mem_filter.mpr ⟨hp, by simpa using hpk⟩
  rw [List.map_eq_nil_iff] at hc
  rw [hc] at this
  exact List.not_mem_nil p this

theorem rngSampleNoReplace_length : ∀ (pool : List ℚ) (n : ℕ) (rng : Rng),
    (rngSampleNoReplace pool n rng).1.length = n
  | _, 0, _ => rfl
  | pool, n + 1, rng => by
    rw [rngSampleNoReplace]
    simp only [List.length_cons]
    rw [rngSampleNoReplace_length _ n]

theorem binning_byBin_nonempty (nBins randomState : ℕ) (yTrue yPred : List ℚ) :
    ∀ kv ∈ (_binning_in_sample_residuals nBins randomState yTrue yPred).byBin,
      kv.2 ≠ [] := by
  intro kv hkv
  unfold _binning_in_sample_residuals at hkv
  simp only at hkv
  obtain ⟨kv0, hkv0, hcase⟩ := List.mem_map.mp hkv
  by_cases hlen : 200 < kv0.2.length
  · rw [if_pos hlen] at hcase
    subst hcase
    simp only
    intro hc
    have := rngSampleNoReplace_length kv0.2 200 (default_rng randomState)
    rw [hc] at this
    simp at this
  · rw [if_neg hlen] at hcase
    subst hcase
    exact groupByBin_nonempty _ kv0 hkv0

theorem binning_flat_sum (nBins randomState : ℕ) (yTrue yPred : List ℚ) :
    (((_binning_in_sample_residuals nBins randomState yTrue yPred).byBin).map
        (fun kv => kv.2.length)).sum =
      (_binning_in_sample_residuals nBins randomState yTrue yPred).flat.length := by
  unfold _binning_in_sample_residuals
  simp only
  rw [List.length_flatten, List.map_map, List.map_map, List.map_map]
  congr 1


theorem binning_keys (nBins randomState : ℕ) (yTrue yPred : List ℚ) :
    ((_binning_in_sample_residuals nBins randomState yTrue yPred).byBin).map Prod.fst =
      sortedKeys (List.zipWith (fun r p => ((binnerFit nBins yPred).transform1 p, r))
        (List.zipWith (fun t p => t - p) yTrue yPred) yPred) := by
  unfold _binning_in_sample_residuals
  simp only [List.map_map]
  have h1 : ((fun kv : ℕ × List ℚ => kv.1) ∘ (fun kv =>
      if 200 < kv.2.length then (kv.1, (rngSampleNoReplace kv.2 200 (default_rng randomState)).1)
      else kv)) = fun kv : ℕ × List ℚ => kv.1 := by
    funext kv
    simp only [Function.comp_apply]
    split <;> rfl
  rw [show (Prod.fst ∘ (fun kv : ℕ × List ℚ =>
      if 200 < kv.2.length then (kv.1, (rngSampleNoReplace kv.2 200 (default_rng randomState)).1)
      else kv)) = fun kv : ℕ × List ℚ => kv.1 from h1]
  unfold groupByBin
  rw [List.map_map]
  refine (List.map_congr_left ?_).trans (List.map_id _)
  intro k _
  rfl

theorem mem_map_fst_zipWith (g : ℚ → ℕ) :
    ∀ (as bs : List ℚ) (x : ℕ),
      x ∈ (List.zipWith (fun r p => (g p, r)) as bs).map Prod.fst →
      ∃ b ∈ bs, x = g b
  | [], _, x, h => by simp at h
  | _ :: _, [], x, h => by simp at h
  | a :: as, b :: bs, x, h => by
    rw [List.zipWith_cons_cons, List.map_cons, List.mem_cons] at h
    rcases h with h | h
    · exact ⟨b, List.mem_cons_self _ _, h⟩
    · obtain ⟨b2, hb2, hx⟩ := mem_map_fst_zipWith g as bs x h
      exact ⟨b2, List.mem_cons_of_mem _ hb2, hx⟩


/-- C5 (amended): after `_binning_in_sample_residuals`, every stored bin pool
is non-empty, the per-bin lengths sum to the length of the flat
`in_sample_residuals_` pool, and the keys of `in_sample_residuals_by_bin_` are
exactly the bins that received at least one prediction — not necessarily all
of `[0, n_bins)`, which the original claim asserted. -/
theorem claim_C5 :
    ∀ (nBins randomState : ℕ) (yTrue yPred : List ℚ),
      (∀ kv ∈ (_binning_in_sample_residuals nBins randomState yTrue yPred).byBin,
        kv.2 ≠ []) ∧
      (((_binning_in_sample_residuals nBins randomState yTrue yPred).byBin).map
        (fun kv => kv.2.length)).sum =
        (_binning_in_sample_residuals nBins randomState yTrue yPred).flat.length ∧
      (∀ k, k ∈ ((_binning_in_sample_residuals nBins randomState yTrue yPred).byBin).map
            Prod.fst ↔
        k ∈ (List.zipWith (fun r p => ((binnerFit nBins yPred).transform1 p, r))
              (List.zipWith (fun t p => t - p) yTrue yPred) yPred).map Prod.fst) := by
  intro nBins randomState yTrue yPred
  refine ⟨binning_byBin_nonempty nBins randomState yTrue yPred,
    binning_flat_sum nBins randomState yTrue yPred, ?_⟩
  intro k
  rw [binning_keys]
  exact mem_sortedKeys k _

/-- Counterexample for C5: when every in-sample prediction is the same value
(a constant-predicting regressor), all residuals land in one bin, so the bins
0 and 1 cannot both be keys of `in_sample_residuals_by_bin_` even though
`n_bins = 10`. -/
theorem claim_C5_counterexample :
    ¬ (∀ b, b < 10 →
        b ∈ ((_binning_in_sample_residuals 10 95123 cTrue cPred).byBin).map Prod.fst) := by
  intro hall
  have h0 := hall 0 (by omega)
  have h1 := hall 1 (by omega)
  rw [binning_keys] at h0 h1
  have h0m := (mem_sortedKeys 0 _).mp h0
  have h1m := (mem_sortedKeys 1 _).mp h1
  obtain ⟨b0, hb0, he0⟩ := mem_map_fst_zipWith _ _ _ _ h0m
  obtain ⟨b1, hb1, he1⟩ := mem_map_fst_zipWith _ _ _ _ h1m
  have hb0e : b0 = 5 := by simpa [cPred] using hb0
  have hb1e : b1 = 5 := by simpa [cPred] using hb1
  rw [hb0e] at he0
  rw [hb1e] at he1
  omega

/-- Witness for C5 at the concrete constant-prediction fit: the length-sum
conjunct and the key-characterization conjunct at bin 3. -/
theorem claim_C5_witness :
    (((_binning_in_sample_residuals 10 95123 cTrue cPred).byBin).map
      (fun kv => kv.2.length)).sum =
      (_binning_in_sample_residuals 10 95123 cTrue cPred).flat.length ∧
    (3 ∈ ((_binning_in_sample_residuals 10 95123 cTrue cPred).byBin).map Prod.fst ↔
      3 ∈ (List.zipWith (fun r p => ((binnerFit 10 cPred).transform1 p, r))
            (List.zipWith (fun t p => t - p) cTrue cPred) cPred).map Prod.fst) :=
  ⟨(claim_C5 10 95123 cTrue cPred).2.1,
   (claim_C5 10 95123 cTrue cPred).2.2 3⟩

/-- Inserting a lower bound in front of a sorted list keeps it in place. -/
theorem insertSorted_of_le (x : ℚ) (l : List ℚ) (h : ∀ y ∈ l, x ≤ y) :
    insertSorted x l = x :: l := by
  cases l with
  | nil => rfl
  | cons y ys => exact if_pos (h y (List.mem_cons_self _ _))

/-- Sorting an already ascending list is the identity. -/
theorem sortQ_of_sorted : ∀ (l : List ℚ), l.Pairwise (· ≤ ·) → sortQ l = l
  | [], _ => rfl
  | x :: xs, h => by
    obtain ⟨hx, hxs⟩ := List.pairwise_cons.mp h
    show insertSorted x (sortQ xs) = x :: xs
    rw [sortQ_of_sorted xs hxs]
    exact insertSorted_of_le x xs hx

/-- The casts of `0, 1, ..., n-1` into the rationals are ascending. -/
theorem range_cast_sorted (n : ℕ) :
    ((List.range n).map (Nat.cast : ℕ → ℚ)).Pairwise (· ≤ ·) := by
  rw [List.pairwise_map]
  refine (List.pairwise_lt_range n).imp ?_
  intro a b hab
  exact_mod_cast le_of_lt hab

/-- Indexing into the cast range list with default 0. -/
theorem getD_range_cast (n i : ℕ) :
    ((List.range n).map (Nat.cast : ℕ → ℚ)).getD i 0 =
      if i < n then (i : ℚ) else 0 := by
  by_cases h : i < n
  · rw [if_pos h, List.getD_eq_getElem?_getD,
      List.getElem?_eq_getElem (by rw [List.length_map, List.length_range]; exact h)]
    simp only [Option.getD_some, List.getElem_map, List.getElem_range]
  · rw [if_neg h, List.getD_eq_getElem?_getD,
      List.getElem?_eq_none
        (by rw [List.length_map, List.length_range]; exact Nat.le_of_not_lt h)]
    rfl

/-- Unfolding of `quantileSorted` on a non-empty sample. -/
theorem quantileSorted_ne_nil (s : List ℚ) (hs : s ≠ []) (q : ℚ) :
    quantileSorted s q =
      s.getD (⌊q * ((s.length : ℚ) - 1)⌋).toNat 0 +
        (q * ((s.length : ℚ) - 1) - (⌊q * ((s.length : ℚ) - 1)⌋ : ℚ)) *
          (s.getD ((⌊q * ((s.length : ℚ) - 1)⌋).toNat + 1) 0 -
           s.getD (⌊q * ((s.length : ℚ) - 1)⌋).toNat 0) := by
  cases s with
  | nil => exact absurd rfl hs
  | cons a t => rfl

/-- On the equispaced sample `0, 1, ..., n-1` the linear-interpolation
quantile at level `q` is exactly `q * (n - 1)`. -/
theorem quantile_range_map (n : ℕ) (hn : 1 ≤ n) (q : ℚ) (h0 : 0 ≤ q) (h1 : q ≤ 1) :
    quantileSorted ((List.range n).map (Nat.cast : ℕ → ℚ)) q = q * ((n : ℚ) - 1) := by
  set s := (List.range n).map (Nat.cast : ℕ → ℚ) with hsdef
  have hslen : s.length = n := by rw [hsdef, List.length_map, List.length_range]
  have hsne : s ≠ [] := by
    intro hc
    rw [hc] at hslen
    simp at hslen
    omega
  set pos : ℚ := q * ((n : ℚ) - 1) with hpos
  have hn1 : (1 : ℚ) ≤ (n : ℚ) := by exact_mod_cast hn
  have hpos0 : 0 ≤ pos := mul_nonneg h0 (by linarith)
  have hposle : pos ≤ (n : ℚ) - 1 := by nlinarith
  have hfl0 : 0 ≤ ⌊pos⌋ := Int.floor_nonneg.mpr hpos0
  have hfl_le : (⌊pos⌋ : ℚ) ≤ pos := Int.floor_le pos
  have hlt : pos < (⌊pos⌋ : ℚ) + 1 := Int.lt_floor_add_one pos
  have hcast : ((⌊pos⌋.toNat : ℕ) : ℚ) = (⌊pos⌋ : ℚ) := by
    exact_mod_cast Int.toNat_of_nonneg hfl0
  have hlo_lt : ⌊pos⌋.toNat < n := by
    have h2 : (⌊pos⌋ : ℚ) ≤ (n : ℚ) - 1 := le_trans hfl_le hposle
    have h3 : ⌊pos⌋ ≤ (n : ℤ) - 1 := by exact_mod_cast h2
    omega
  rw [quantileSorted_ne_nil s hsne q, hslen, ← hpos]
  rw [hsdef, getD_range_cast, getD_range_cast, if_pos hlo_lt]
  by_cases hcase : ⌊pos⌋.toNat + 1 < n
  · rw [if_pos hcase]
    push_cast [hcast]
    ring
  · rw [if_neg hcase]
    have hzeq : ⌊pos⌋ = (n : ℤ) - 1 := by omega
    have hposeq : pos = (n : ℚ) - 1 := by
      have h4 : (⌊pos⌋ : ℚ) = (n : ℚ) - 1 := by
        rw [hzeq]
        push_cast
        ring
      linarith
    have hfq : (⌊pos⌋ : ℚ) = pos := by
      rw [hzeq, hposeq]
      push_cast
      ring
    rw [hcast, hfq]
    ring

set_option maxRecDepth 10000 in
/-- Fitting the 10-bin quantile binner on the 1001 equispaced predictions
yields the equispaced edges 0, 100, ..., 1000. -/
theorem binnerFit_c6 : binnerFit 10 c6Pred = ⟨c6Edges⟩ := by
  have hq : ∀ i ∈ List.range 11,
      quantileSorted ((List.range 1001).map (Nat.cast : ℕ → ℚ)) ((i : ℚ) / ((10:ℕ) : ℚ)) =
        (i : ℚ) * 100 := by
    intro i hi
    have hi' : i < 11 := List.mem_range.mp hi
    have hle : (i : ℚ) ≤ 10 := by exact_mod_cast Nat.lt_succ_iff.mp hi'
    rw [quantile_range_map 1001 (by omega) _ (by positivity)
      (by rw [div_le_one (by norm_num)]; exact_mod_cast hle)]
    push_cast
    ring
  unfold binnerFit c6Pred
  rw [sortQ_of_sorted _ (range_cast_sorted 1001)]
  show Binner.mk ((List.range 11).map
      (fun (i : ℕ) => quantileSorted ((List.range 1001).map (Nat.cast : ℕ → ℚ))
        ((i : ℚ) / ((10:ℕ) : ℚ)))) = ⟨c6Edges⟩
  congr 1
  rw [List.map_congr_left hq]
  norm_num [List.range_succ, c6Edges]

/-- On a natural-valued input, the `c6Edges` binner's transform counts the
interior edges below it, in natural arithmetic. -/
theorem transform1_c6 (j : ℕ) :
    Binner.transform1 ⟨c6Edges⟩ (j : ℚ) = c6Interior.countP (fun e => decide (e ≤ j)) := by
  unfold Binner.transform1
  have h : (c6Edges.drop 1).dropLast = c6Interior.map (Nat.cast : ℕ → ℚ) := by
    norm_num [c6Edges, c6Interior]
  rw [h, List.countP_map]
  refine List.countP_congr ?_
  intro e _
  simp [Nat.cast_le]

/-- With 11 edges the transform has 9 interior edges, so every bin index is
below 10. -/
theorem transform1_c6_lt (v : ℚ) : Binner.transform1 ⟨c6Edges⟩ v < 10 := by
  show ((c6Edges.drop 1).dropLast).countP (fun e => decide (e ≤ v)) < 10
  have h := List.countP_le_length (p := fun e => decide (e ≤ v))
    (l := (c6Edges.drop 1).dropLast)
  have h9 : ((c6Edges.drop 1).dropLast).length = 9 := rfl
  omega

/-- Counting pairs by first component through the binning `zipWith` reduces
to counting the prediction list directly. -/
theorem countP_fst_zipWith (g : ℚ → ℕ) (k : ℕ) :
    ∀ (as bs : List ℚ), bs.length ≤ as.length →
      (List.zipWith (fun r p => (g p, r)) as bs).countP (fun p => p.1 == k) =
        bs.countP (fun b => g b == k)
  | _, [], _ => by simp
  | [], _ :: _, h => by simp at h
  | a :: as, b :: bs, h => by
    rw [List.zipWith_cons_cons, List.countP_cons, List.countP_cons,
      countP_fst_zipWith g k as bs (by simpa using h)]

/-- The failing input produces one (bin, residual) pair per training point. -/
theorem c6Pairs_length : c6Pairs.length = 1001 := by
  unfold c6Pairs c6Pred
  simp [List.length_zipWith]

/-- The number of pairs in bin `k` is the decidable count `c6Count k`. -/
theorem c6_countP_key (k : ℕ) :
    c6Pairs.countP (fun p => p.1 == k) = c6Count k := by
  unfold c6Pairs
  rw [countP_fst_zipWith _ k _ _ (by unfold c6Pred; simp [List.length_zipWith])]
  rw [binnerFit_c6]
  unfold c6Pred c6Count
  rw [List.countP_map]
  refine List.countP_congr ?_
  intro j _
  simp only [Function.comp_apply]
  rw [transform1_c6]

set_option maxRecDepth 40000 in
/-- Each of the ten bins receives at most 200 of the 1001 training points
(in fact 100 or 101). -/
theorem c6Count_le (k : ℕ) (h : k < 10) : c6Count k ≤ 200 := by
  interval_cases k <;> decide

/-- Every bin key realized on the failing input is below 10. -/
theorem c6_key_lt (k : ℕ) (hk : k ∈ sortedKeys c6Pairs) : k < 10 := by
  obtain ⟨b, hb, hx⟩ := mem_map_fst_zipWith _ _ _ k ((mem_sortedKeys k c6Pairs).mp hk)
  subst hx
  rw [binnerFit_c6]
  exact transform1_c6_lt b

/-- Every residual group of the failing input has at most 200 members. -/
theorem c6_group_len (kv : ℕ × List ℚ) (h : kv ∈ groupByBin c6Pairs) :
    kv.2.length ≤ 200 := by
  unfold groupByBin at h
  obtain ⟨k, hk, rfl⟩ := List.mem_map.mp h
  simp only [List.length_map]
  rw [← List.countP_eq_length_filter]
  rw [c6_countP_key]
  exact c6Count_le k (c6_key_lt k hk)

/-- Because no group exceeds 200, the per-bin down-sampling never fires on
the failing input and the stored bins are exactly the raw groups. -/
theorem c6_byBin_eq :
    (_binning_in_sample_residuals 10 95123 c6Pred c6Pred).byBin = groupByBin c6Pairs := by
  have hcap : ∀ kv ∈ groupByBin c6Pairs,
      (if 200 < kv.2.length then
        (kv.1, (rngSampleNoReplace kv.2 200 (default_rng 95123)).1) else kv) = kv := by
    intro kv hkv
    rw [if_neg (Nat.not_lt.mpr (c6_group_len kv hkv))]
  have hpairs : List.zipWith (fun r p => ((binnerFit 10 c6Pred).transform1 p, r))
      (List.zipWith (fun t p => t - p) c6Pred c6Pred) c6Pred = c6Pairs := rfl
  unfold _binning_in_sample_residuals
  simp only
  rw [hpairs]
  exact (List.map_congr_left hcap).trans (List.map_id _)

/-- C6: refuted — the flat cap does not hold.  On a fit whose 1001 training
predictions are 0, 1, ..., 1000 (truth equal to prediction), every per-bin
pool stays within its 200 cap, yet `in_sample_residuals_` — stored as the
concatenation of the per-bin pools (source lines 839-841) — holds 1001
residuals, exceeding the 1000-value bound the claim (and the class
docstring) promises for the flat buffer. -/
theorem claim_C6 :
    1000 < (_binning_in_sample_residuals 10 95123 c6Pred c6Pred).flat.length ∧
      (_binning_in_sample_residuals 10 95123 c6Pred c6Pred).flat.length = 1001 := by
  have h1 : (_binning_in_sample_residuals 10 95123 c6Pred c6Pred).flat.length = 1001 := by
    rw [← binning_flat_sum, c6_byBin_eq, groupByBin_length_sum]
    exact c6Pairs_length
  exact ⟨by omega, h1⟩

end Skforecast
